import Mathlib

/-!
# N-Body simulation: Barnes-Hut tree, physics kernel and step engines

A shallow embedding of the Go sources `phys/body.go`, `qtree/qtree.go` and
`main/sim.go`.  `float32` values are exact rationals; the square root taken by
`raymath.Vector2Distance` is `Rat.sqrt`, which is exact whenever its argument
is the square of a rational.  Quotients by zero are only reached under
hypotheses that exclude them, except for the opening test `s/d < theta` of
`CalculateForces`, which is evaluated as Go evaluates it on floats.

The tree insertion and the force computation are embedded a second time with
rounded arithmetic (`InsertR`, `CalculateForcesR`): every operation is followed
by a rounding function, which is the identity for exact arithmetic and `fl32`
for IEEE binary32, operations are rounded one by one (no fused multiply-add, as
the Go compiler emits for amd64), and a quotient by zero is an explicit
outcome.
-/

namespace NBody

/-! ## Data model -/

/-- The type `rl.Vector2`. -/
structure Vector2 where
  X : ℚ
  Y : ℚ
deriving DecidableEq

/-- The type `rl.Rectangle`. -/
structure Rectangle where
  X : ℚ
  Y : ℚ
  Width : ℚ
  Height : ℚ
deriving DecidableEq

/-- The type `phys.Body`. -/
structure Body where
  Mass : ℚ
  Position : Vector2
  Velocity : Vector2
  Radius : ℚ
  Id : Int
  Force : Vector2
deriving DecidableEq

/-- Gravitational constant of `phys/body.go`. -/
def G : ℚ := 1

/-- Largest distance used by the force law. -/
def MaxDistance : ℚ := 2500

/-- Time step (`0.4`). -/
def dt : ℚ := 2 / 5

/-- Radius per unit of mass. -/
def RadiusCoeff : ℚ := 3

/-- Opening threshold of the Barnes-Hut test (`0.8`). -/
def theta : ℚ := 4 / 5

/-- Bound on the recursion depth of `Insert`. -/
def maxDepth : Nat := 800

/-! ## Vector operations of `raymath` -/

/-- The function `rl.NewVector2`. -/
def NewVector2 (x y : ℚ) : Vector2 := ⟨x, y⟩

/-- The function `raymath.Vector2Add`. -/
def Vector2Add (v1 v2 : Vector2) : Vector2 := ⟨v1.X + v2.X, v1.Y + v2.Y⟩

/-- The function `raymath.Vector2Subtract`. -/
def Vector2Subtract (v1 v2 : Vector2) : Vector2 := ⟨v1.X - v2.X, v1.Y - v2.Y⟩

/-- The function `raymath.Vector2Scale` (the vector is updated in place in Go). -/
def Vector2Scale (v : Vector2) (scale : ℚ) : Vector2 := ⟨v.X * scale, v.Y * scale⟩

/-- The function `raymath.Vector2Divide` (the vector is updated in place in Go). -/
def Vector2Divide (v : Vector2) (div : ℚ) : Vector2 := ⟨v.X / div, v.Y / div⟩

/-- The function `raymath.Vector2Distance`: square root of the squared
coordinate differences. -/
def Vector2Distance (v1 v2 : Vector2) : ℚ :=
  Rat.sqrt ((v1.X - v2.X) * (v1.X - v2.X) + (v1.Y - v2.Y) * (v1.Y - v2.Y))

/-- The function `raymath.Clamp`. -/
def Clamp (value lo hi : ℚ) : ℚ :=
  let res := if value < lo then lo else value
  if res > hi then hi else res

/-! ## `phys/body.go` -/

/-- The constructor `NewBody`. -/
def NewBody (mass : ℚ) (id : Int) (pos vel : Vector2) : Body :=
  let radius := mass * RadiusCoeff
  ⟨mass, pos, vel, radius, id, NewVector2 0 0⟩

/-- The zero value `phys.Body{}`. -/
def emptyBody : Body := ⟨0, ⟨0, 0⟩, ⟨0, 0⟩, 0, 0, ⟨0, 0⟩⟩

/-- The method `Body.AddForce`: returns the receiver `b` after the update. -/
def AddForce (b other : Body) : Body :=
  let distance := Vector2Distance b.Position other.Position
  let distance := Clamp distance (max b.Radius other.Radius) MaxDistance
  let force := Vector2Subtract other.Position b.Position
  let force := Vector2Divide force distance
  let strength := G * other.Mass / (distance * distance)
  let force := Vector2Scale force strength
  { b with Force := Vector2Add b.Force force }

/-- The method `Body.ZeroForce`. -/
def ZeroForce (b : Body) : Body := { b with Force := NewVector2 0 0 }

/-- The method `Body.Update`: returns the receiver after the update; the Go
return value is its `Position`. -/
def Update (b : Body) : Body :=
  let force := Vector2Scale b.Force dt
  let velocity := Vector2Add b.Velocity force
  let vel := Vector2Scale velocity dt
  { b with Force := force, Velocity := velocity, Position := Vector2Add b.Position vel }

/-- The function `AddBody`: centre of mass of two bodies. -/
def AddBody (b1 b2 : Body) : Body :=
  let m := b1.Mass + b2.Mass
  let x := (b1.Position.X * b1.Mass + b2.Position.X * b2.Mass) / m
  let y := (b1.Position.Y * b1.Mass + b2.Position.Y * b2.Mass) / m
  let dx := (b1.Velocity.X * b1.Mass + b2.Velocity.X * b2.Mass) / m
  let dy := (b1.Velocity.Y * b1.Mass + b2.Velocity.Y * b2.Mass) / m
  NewBody m (-1) (NewVector2 x y) (NewVector2 dx dy)

/-! ## `qtree/qtree.go` -/

/-- The type `BHTree`.  `leaf` is a node with `divided = false` (its four child
pointers are nil); `node` is a node with `divided = true`, whose children are
listed in the order of the fields `nw`, `ne`, `sw`, `se`. -/
inductive BHTree where
  | leaf (boundary : Rectangle) (body : Body) : BHTree
  | node (boundary : Rectangle) (body : Body) (nw ne sw se : BHTree) : BHTree
deriving DecidableEq

namespace BHTree

/-- Field `boundary`. -/
def boundary : BHTree → Rectangle
  | leaf bd _ => bd
  | node bd _ _ _ _ _ => bd

/-- Field `body`. -/
def body : BHTree → Body
  | leaf _ b => b
  | node _ b _ _ _ _ => b

/-- Field `divided`. -/
def divided : BHTree → Bool
  | leaf _ _ => false
  | node _ _ _ _ _ _ => true

/-- The method `contains`. -/
def contains (q : BHTree) (body : Body) : Bool :=
  decide (body.Position.X ≥ q.boundary.X) &&
  decide (body.Position.X ≤ q.boundary.X + q.boundary.Width) &&
  decide (body.Position.Y ≥ q.boundary.Y) &&
  decide (body.Position.Y ≤ q.boundary.Y + q.boundary.Height)

end BHTree

open BHTree

/-- The constructor `NewBHTree`. -/
def NewBHTree (bound : Rectangle) : BHTree := leaf bound emptyBody

/-- The method `subdivide` applied to a node with boundary `bd`: the new values
of the fields `nw`, `ne`, `sw`, `se` in that order (`divided = true` is the
constructor `node`).  The rectangle named `sw` goes to the field `se` and the
rectangle named `se` to the field `sw`, as in the source. -/
def subdivide (bd : Rectangle) : BHTree × BHTree × BHTree × BHTree :=
  let nw : Rectangle := ⟨bd.X, bd.Y, bd.Width / 2, bd.Height / 2⟩
  let ne : Rectangle := ⟨bd.X + bd.Width / 2, bd.Y, bd.Width / 2, bd.Height / 2⟩
  let sw : Rectangle := ⟨bd.X, bd.Y + bd.Height / 2, bd.Width / 2, bd.Height / 2⟩
  let se : Rectangle := ⟨bd.X + bd.Width / 2, bd.Y + bd.Height / 2, bd.Width / 2, bd.Height / 2⟩
  (NewBHTree nw, NewBHTree ne, NewBHTree se, NewBHTree sw)

/-- The method `Insert`: returns the receiver after the update.  `depth` is the
argument of the call; the body of the function works with `depth + 1`. -/
def Insert (q : BHTree) (body : Body) (depth : Nat) : BHTree :=
  match q with
  | node bd b nw ne sw se =>
    if b.Mass = 0 then node bd body nw ne sw se
    else
      let b1 := AddBody b body
      if nw.contains body then node bd b1 (Insert nw body (depth + 1)) ne sw se
      else if ne.contains body then node bd b1 nw (Insert ne body (depth + 1)) sw se
      else if sw.contains body then node bd b1 nw ne (Insert sw body (depth + 1)) se
      else node bd b1 nw ne sw (Insert se body (depth + 1))
  | leaf bd b =>
    if b.Mass = 0 then leaf bd body
    else
      let otherBody := b
      let b1 := AddBody otherBody body
      if _h : depth + 1 < maxDepth then
        let kids := subdivide bd
        let kids1 : BHTree × BHTree × BHTree × BHTree :=
          if kids.1.contains body then
            (Insert kids.1 body (depth + 1), kids.2.1, kids.2.2.1, kids.2.2.2)
          else if kids.2.1.contains body then
            (kids.1, Insert kids.2.1 body (depth + 1), kids.2.2.1, kids.2.2.2)
          else if kids.2.2.1.contains body then
            (kids.1, kids.2.1, Insert kids.2.2.1 body (depth + 1), kids.2.2.2)
          else (kids.1, kids.2.1, kids.2.2.1, Insert kids.2.2.2 body (depth + 1))
        if kids1.1.contains otherBody then
          node bd b1 (Insert kids1.1 otherBody (depth + 1)) kids1.2.1 kids1.2.2.1 kids1.2.2.2
        else if kids1.2.1.contains otherBody then
          node bd b1 kids1.1 (Insert kids1.2.1 otherBody (depth + 1)) kids1.2.2.1 kids1.2.2.2
        else if kids1.2.2.1.contains otherBody then
          node bd b1 kids1.1 kids1.2.1 (Insert kids1.2.2.1 otherBody (depth + 1)) kids1.2.2.2
        else node bd b1 kids1.1 kids1.2.1 kids1.2.2.1 (Insert kids1.2.2.2 otherBody (depth + 1))
      else leaf bd b1
termination_by (maxDepth - depth, sizeOf q)
decreasing_by
  all_goals simp_wf
  all_goals first
    | (apply Prod.Lex.left; omega)
    | (by_cases hd : depth < maxDepth
       · apply Prod.Lex.left; omega
       · have e : maxDepth - (depth + 1) = maxDepth - depth := by omega
         rw [e]; apply Prod.Lex.right; omega)

/-- The test `s/d < theta` of `CalculateForces` on floats: for `d = 0` the
quotient is `+Inf` (`s > 0`), `NaN` (`s = 0`) or `-Inf` (`s < 0`), and only the
last one is below `theta`. -/
def ratioBelowTheta (s d : ℚ) : Bool :=
  if d = 0 then decide (s < 0) else decide (s / d < theta)

/-- The method `CalculateForces`: returns the target `body` after the update. -/
def CalculateForces : BHTree → Body → Body
  | leaf _ qb, body =>
    if body.Mass = 0 ∨ qb.Id = body.Id then body
    else AddForce body qb
  | node bd qb nw ne sw se, body =>
    if body.Mass = 0 ∨ qb.Id = body.Id then body
    else
      let s := bd.Width
      let d := Vector2Distance qb.Position body.Position
      if ratioBelowTheta s d then AddForce body qb
      else CalculateForces se (CalculateForces sw (CalculateForces ne (CalculateForces nw body)))

/-- The node bodies that `CalculateForces` passes to `AddForce`, in call order. -/
def forceTerms : BHTree → Body → List Body
  | leaf _ qb, body =>
    if body.Mass = 0 ∨ qb.Id = body.Id then []
    else [qb]
  | node bd qb nw ne sw se, body =>
    if body.Mass = 0 ∨ qb.Id = body.Id then []
    else
      let s := bd.Width
      let d := Vector2Distance qb.Position body.Position
      if ratioBelowTheta s d then [qb]
      else
        let body1 := CalculateForces nw body
        let body2 := CalculateForces ne body1
        let body3 := CalculateForces sw body2
        forceTerms nw body ++ forceTerms ne body1 ++ forceTerms sw body2 ++ forceTerms se body3

/-! ## `main/sim.go` -/

/-- The loop of `addToTree`: every body received is inserted with depth `0`. -/
def insertAll (tree : BHTree) (bodies : List Body) : BHTree :=
  bodies.foldl (fun t body => Insert t body 0) tree

/-- The function `addToTree`: the tree sent on `cTree` once the channel of
bodies is closed; `bodies` lists the bodies in the order they are received. -/
def addToTree (WindowWidth WindowHeight : Int) (bodies : List Body) : BHTree :=
  insertAll (NewBHTree ⟨0, 0, (WindowWidth : ℚ), (WindowHeight : ℚ)⟩) bodies

/-- One element of the output: the map with keys `"Id"` and `"Position"`. -/
structure Record where
  Id : Int
  Position : List (ℚ × ℚ)
deriving DecidableEq

/-- The function `initData`; `none` entries are nil maps, the result `none` is a
run-time panic (index out of range). -/
def initData (bodies : List Body) : Option (List (Option Record)) :=
  bodies.foldlM
    (fun data b =>
      if 0 ≤ b.Id ∧ b.Id.toNat < data.length then
        some (data.set b.Id.toNat (some ⟨b.Id, [(b.Position.X, b.Position.Y)]⟩))
      else none)
    (List.replicate bodies.length none)

/-- The physics loop of `seqProcess` from index `i` on, over the bodies not yet
processed; `data = none` is a nil slice, the result `none` is a run-time panic
(nil map, or index out of range). -/
def seqLoop (tree : BHTree) :
    List Body → Nat → Option (List (Option Record)) →
      Option (List Body × Option (List (Option Record)))
  | [], _, data => some ([], data)
  | b :: rest, i, data =>
    let b1 := CalculateForces tree b
    let b2 := Update b1
    let b3 := ZeroForce b2
    match data with
    | none => (seqLoop tree rest (i + 1) none).map (fun r => (b3 :: r.1, r.2))
    | some d =>
      match d.get? i with
      | some (some r) =>
        let r1 : Record := { r with Position := r.Position ++ [(b3.Position.X, b3.Position.Y)] }
        (seqLoop tree rest (i + 1) (some (d.set i (some r1)))).map (fun r => (b3 :: r.1, r.2))
      | _ => none

/-- The function `seqProcess` without the drawing: the bodies and the data
after one step. -/
def seqProcess (WindowWidth WindowHeight : Int) (bodies : List Body)
    (data : Option (List (Option Record))) :
    Option (List Body × Option (List (Option Record))) :=
  let tree := addToTree WindowWidth WindowHeight bodies
  seqLoop tree bodies 0 data

/-- The loop of `sequential`: `count` further calls of `seqProcess`. -/
def seqIterate (WindowWidth WindowHeight : Int) :
    Nat → List Body → Option (List (Option Record)) →
      Option (List Body × Option (List (Option Record)))
  | 0, bodies, data => some (bodies, data)
  | count + 1, bodies, data =>
    match seqProcess WindowWidth WindowHeight bodies data with
    | none => none
    | some (bodies1, data1) => seqIterate WindowWidth WindowHeight count bodies1 data1

/-- The function `sequential` on the bodies read from the input: the slice
that is encoded on the output. -/
def sequential (WindowWidth WindowHeight : Int) (bodies : List Body) (numIterations : Nat) :
    Option (List (Option Record)) :=
  match initData bodies with
  | none => none
  | some bodiesData =>
    match seqIterate WindowWidth WindowHeight numIterations bodies (some bodiesData) with
    | none => none
    | some (_, out) => out

/-- The index ranges `(min, max)` that `parallel` and `guiParallel` hand to the
workers, for `N = len(bodies)` and `ThreadCount = T`. -/
def shardRanges (N T : Nat) : List (Nat × Nat) :=
  let sublength := N / T
  let T1 := if sublength = 0 then N else T
  let sublength := if sublength = 0 then 1 else sublength
  (List.range T1).map fun i =>
    let min := sublength * i
    let max := if i = T1 - 1 then N else min + sublength
    (min, max)

/-! ## Auxiliary definitions used by the statements -/

/-- One routing step of `Insert` at a divided node: `x` is inserted, at depth
`d`, into the first of the children `nw`, `ne`, `sw` that contains it, and into
`se` when none does.  An undivided node is left as it is. -/
def routeInto : BHTree → Body → Nat → BHTree
  | leaf bd b, _, _ => leaf bd b
  | node bd b nw ne sw se, x, d =>
    if nw.contains x then node bd b (Insert nw x d) ne sw se
    else if ne.contains x then node bd b nw (Insert ne x d) sw se
    else if sw.contains x then node bd b nw ne (Insert sw x d) se
    else node bd b nw ne sw (Insert se x d)

/-! ## Concrete inputs -/

/-- Target body of the far-field force example. -/
def farTarget : Body := NewBody 1 0 ⟨0, 0⟩ ⟨0, 0⟩

/-- A body at distance `5000` from `farTarget`. -/
def farBody : Body := NewBody 1 1 ⟨5000, 0⟩ ⟨0, 0⟩

/-- A body of the same mass, in the same direction, at distance `2500`. -/
def limitBody : Body := NewBody 1 2 ⟨2500, 0⟩ ⟨0, 0⟩

/-- A body in the north-west quadrant of the window `100 x 100`. -/
def bodyNW : Body := NewBody 1 0 ⟨10, 10⟩ ⟨0, 0⟩

/-- A body in the north-east quadrant of the window `100 x 100`. -/
def bodyNE : Body := NewBody 1 1 ⟨60, 10⟩ ⟨0, 0⟩

/-- A body on the edge shared by the south-west and south-east quadrants of
the window `100 x 100`. -/
def bodyEdge : Body := NewBody 1 2 ⟨50, 75⟩ ⟨0, 0⟩

/-- Target of the self-force example: mass 1 at the corner of the window
`100 x 100`. -/
def selfTarget : Body := NewBody 1 0 ⟨0, 0⟩ ⟨0, 0⟩

/-- The other body of the self-force example: mass 18 at `(95, 99.75)`. -/
def selfOther : Body := NewBody 18 1 ⟨95, 399 / 4⟩ ⟨0, 0⟩

/-- First loaded body of the swapped-id input: id 1 at `(300, 400)`. -/
def swapFirst : Body := NewBody 1 1 ⟨300, 400⟩ ⟨0, 0⟩

/-- Second loaded body of the swapped-id input: id 0 at `(600, 800)`. -/
def swapSecond : Body := NewBody 1 0 ⟨600, 800⟩ ⟨0, 0⟩

/-- The four child fields of a divided node. -/
inductive Quadrant where
  | nw | ne | sw | se
deriving DecidableEq

/-- The child that `Insert` chooses for `x` at a divided node with children
`nw`, `ne`, `sw` (and `se`): the first one that contains `x`, else `se`. -/
def routeOf (nw ne sw : BHTree) (x : Body) : Quadrant :=
  if nw.contains x then Quadrant.nw
  else if ne.contains x then Quadrant.ne
  else if sw.contains x then Quadrant.sw
  else Quadrant.se

/-- Sum of the masses of the bodies of a list. -/
def massSum (L : List Body) : ℚ := (L.map fun b => b.Mass).sum

/-- Sum of `m_i * x_i` over the bodies of a list. -/
def momentX (L : List Body) : ℚ := (L.map fun b => b.Mass * b.Position.X).sum

/-- Sum of `m_i * y_i` over the bodies of a list. -/
def momentY (L : List Body) : ℚ := (L.map fun b => b.Mass * b.Position.Y).sum

/-- The body `b` carries the total mass of `L` and `b.Mass * b.Position` is
the sum of `m_i * p_i` over `L`. -/
def Aggregates (b : Body) (L : List Body) : Prop :=
  b.Mass = massSum L ∧ b.Mass * b.Position.X = momentX L ∧ b.Mass * b.Position.Y = momentY L

/-- Every divided node of the tree aggregates the bodies of `L` that are routed
into its subtree, `L` being the bodies routed into the tree itself. -/
def COMAggregated : BHTree → List Body → Prop
  | leaf _ _, _ => True
  | node _ b nw ne sw se, L =>
    Aggregates b L ∧
    COMAggregated nw (L.filter fun x => decide (routeOf nw ne sw x = Quadrant.nw)) ∧
    COMAggregated ne (L.filter fun x => decide (routeOf nw ne sw x = Quadrant.ne)) ∧
    COMAggregated sw (L.filter fun x => decide (routeOf nw ne sw x = Quadrant.sw)) ∧
    COMAggregated se (L.filter fun x => decide (routeOf nw ne sw x = Quadrant.se))

/-- Invariant of `Insert` behind `COMAggregated`, for a node reached with the
argument `depth = d`: an undivided node is empty, or stores the single body
routed to it, or sits at the depth limit and aggregates its bodies. -/
def COMInv : BHTree → List Body → Nat → Prop
  | leaf _ b, L, d =>
    (L = [] ∧ b.Mass = 0) ∨ L = [b] ∨ (¬ d + 1 < maxDepth ∧ L ≠ [] ∧ Aggregates b L)
  | node _ b nw ne sw se, L, d =>
    L ≠ [] ∧ Aggregates b L ∧
    COMInv nw (L.filter fun x => decide (routeOf nw ne sw x = Quadrant.nw)) (d + 1) ∧
    COMInv ne (L.filter fun x => decide (routeOf nw ne sw x = Quadrant.ne)) (d + 1) ∧
    COMInv sw (L.filter fun x => decide (routeOf nw ne sw x = Quadrant.sw)) (d + 1) ∧
    COMInv se (L.filter fun x => decide (routeOf nw ne sw x = Quadrant.se)) (d + 1)

/-- The closed-interval test of `contains`, for a rectangle and a point. -/
def inRect (r : Rectangle) (p : Vector2) : Prop :=
  p.X ≥ r.X ∧ p.X ≤ r.X + r.Width ∧ p.Y ≥ r.Y ∧ p.Y ≤ r.Y + r.Height

/-- Every undivided node of the tree that holds a body (`Mass ≠ 0`) has the
position of that body inside its own boundary and inside every rectangle of
`anc`, the boundaries of the ancestors of the tree; the test is `contains`. -/
def Contained : List Rectangle → BHTree → Prop
  | anc, leaf bd b => b.Mass ≠ 0 → ∀ r ∈ bd :: anc, (NewBHTree r).contains b = true
  | anc, node bd _ nw ne sw se =>
    Contained (bd :: anc) nw ∧ Contained (bd :: anc) ne ∧
    Contained (bd :: anc) sw ∧ Contained (bd :: anc) se

/-- Invariant of `Insert` behind `Contained`: the children of a divided node
cover the four quadrants of its boundary as `subdivide` assigns them, and an
undivided node is empty or holds a body of positive mass inside its boundary. -/
def GeoInv : BHTree → Prop
  | leaf bd b => b.Mass = 0 ∨ (0 < b.Mass ∧ inRect bd b.Position)
  | node bd _ nw ne sw se =>
    nw.boundary = ⟨bd.X, bd.Y, bd.Width / 2, bd.Height / 2⟩ ∧
    ne.boundary = ⟨bd.X + bd.Width / 2, bd.Y, bd.Width / 2, bd.Height / 2⟩ ∧
    sw.boundary = ⟨bd.X + bd.Width / 2, bd.Y + bd.Height / 2, bd.Width / 2, bd.Height / 2⟩ ∧
    se.boundary = ⟨bd.X, bd.Y + bd.Height / 2, bd.Width / 2, bd.Height / 2⟩ ∧
    GeoInv nw ∧ GeoInv ne ∧ GeoInv sw ∧ GeoInv se

/-- The largest value that the counter `depth` takes, after `depth++`, in the
calls of `Insert` made by `Insert q body depth`, that call included: the same
case analysis as `Insert`, the inner calls being made on the same trees. -/
def InsertDepth (q : BHTree) (body : Body) (depth : Nat) : Nat :=
  match q with
  | node _ b nw ne sw se =>
    if b.Mass = 0 then depth + 1
    else if nw.contains body then max (depth + 1) (InsertDepth nw body (depth + 1))
    else if ne.contains body then max (depth + 1) (InsertDepth ne body (depth + 1))
    else if sw.contains body then max (depth + 1) (InsertDepth sw body (depth + 1))
    else max (depth + 1) (InsertDepth se body (depth + 1))
  | leaf bd b =>
    if b.Mass = 0 then depth + 1
    else
      let otherBody := b
      if _h : depth + 1 < maxDepth then
        let kids := subdivide bd
        let first : Nat :=
          if kids.1.contains body then InsertDepth kids.1 body (depth + 1)
          else if kids.2.1.contains body then InsertDepth kids.2.1 body (depth + 1)
          else if kids.2.2.1.contains body then InsertDepth kids.2.2.1 body (depth + 1)
          else InsertDepth kids.2.2.2 body (depth + 1)
        let kids1 : BHTree × BHTree × BHTree × BHTree :=
          if kids.1.contains body then
            (Insert kids.1 body (depth + 1), kids.2.1, kids.2.2.1, kids.2.2.2)
          else if kids.2.1.contains body then
            (kids.1, Insert kids.2.1 body (depth + 1), kids.2.2.1, kids.2.2.2)
          else if kids.2.2.1.contains body then
            (kids.1, kids.2.1, Insert kids.2.2.1 body (depth + 1), kids.2.2.2)
          else (kids.1, kids.2.1, kids.2.2.1, Insert kids.2.2.2 body (depth + 1))
        let second : Nat :=
          if kids1.1.contains otherBody then InsertDepth kids1.1 otherBody (depth + 1)
          else if kids1.2.1.contains otherBody then InsertDepth kids1.2.1 otherBody (depth + 1)
          else if kids1.2.2.1.contains otherBody then
            InsertDepth kids1.2.2.1 otherBody (depth + 1)
          else InsertDepth kids1.2.2.2 otherBody (depth + 1)
        max (depth + 1) (max first second)
      else depth + 1
termination_by (maxDepth - depth, sizeOf q)
decreasing_by
  all_goals simp_wf
  all_goals first
    | (apply Prod.Lex.left; omega)
    | (by_cases hd : depth < maxDepth
       · apply Prod.Lex.left; omega
       · have e : maxDepth - (depth + 1) = maxDepth - depth := by omega
         rw [e]; apply Prod.Lex.right; omega)

/-- The value of `InsertDepth` for the call that one routing step makes at a
divided node (`0` at an undivided node, where no call is made). -/
def routeDepth : BHTree → Body → Nat → Nat
  | leaf _ _, _, _ => 0
  | node _ _ nw ne sw se, x, d =>
    if nw.contains x then InsertDepth nw x d
    else if ne.contains x then InsertDepth ne x d
    else if sw.contains x then InsertDepth sw x d
    else InsertDepth se x d

/-- Depth discipline of a tree whose root `Insert` reaches with the argument
`depth = d`: every node is reached with `depth + 1 ≤ maxDepth`, and a node
reached with `depth + 1 = maxDepth` (the depth limit) is not divided. -/
def DepthBounded : Nat → BHTree → Prop
  | d, leaf _ _ => d + 1 ≤ maxDepth
  | d, node _ _ nw ne sw se =>
    d + 1 < maxDepth ∧ DepthBounded (d + 1) nw ∧ DepthBounded (d + 1) ne ∧
    DepthBounded (d + 1) sw ∧ DepthBounded (d + 1) se

/-- The undivided node that the routing of `Insert` reaches for the body `x`. -/
def locate : BHTree → Body → BHTree
  | leaf bd b, _ => leaf bd b
  | node _ _ nw ne sw se, x =>
    if nw.contains x then locate nw x
    else if ne.contains x then locate ne x
    else if sw.contains x then locate sw x
    else locate se x

/-- Every divided node carries a positive mass and no undivided node a
negative one. -/
def PosInv : BHTree → Prop
  | leaf _ b => 0 ≤ b.Mass
  | node _ b nw ne sw se => 0 < b.Mass ∧ PosInv nw ∧ PosInv ne ∧ PosInv sw ∧ PosInv se

/-- A body of mass 2 at the position of `bodyNW`. -/
def bodyTwin : Body := NewBody 2 3 ⟨10, 10⟩ ⟨0, 0⟩

/-- The bodies held by the undivided nodes of a tree. -/
def leafBodies : BHTree → List Body
  | leaf _ b => [b]
  | node _ _ nw ne sw se => leafBodies nw ++ leafBodies ne ++ leafBodies sw ++ leafBodies se

/-- Every body of positive mass and non-negative id held by an undivided node
sits in the child that the routing of `Insert` chooses for it, at every divided
node above it. -/
def RoutedInv : BHTree → Prop
  | leaf _ _ => True
  | node _ _ nw ne sw se =>
    (∀ y ∈ leafBodies nw, 0 < y.Mass → 0 ≤ y.Id → routeOf nw ne sw y = Quadrant.nw) ∧
    (∀ y ∈ leafBodies ne, 0 < y.Mass → 0 ≤ y.Id → routeOf nw ne sw y = Quadrant.ne) ∧
    (∀ y ∈ leafBodies sw, 0 < y.Mass → 0 ≤ y.Id → routeOf nw ne sw y = Quadrant.sw) ∧
    (∀ y ∈ leafBodies se, 0 < y.Mass → 0 ≤ y.Id → routeOf nw ne sw y = Quadrant.se) ∧
    RoutedInv nw ∧ RoutedInv ne ∧ RoutedInv sw ∧ RoutedInv se

/-- The tree with the field `body` replaced. -/
def setBody : BHTree → Body → BHTree
  | leaf bd _, b => leaf bd b
  | node bd _ nw ne sw se, b => node bd b nw ne sw se

/-! ## binary32 rounding

The definitions above take `float32` arithmetic as exact.  The definitions
below repeat the same code with every arithmetic operation followed by a
rounding function `rnd`: `rnd = id` is exact arithmetic, `rnd = fl32` is IEEE
binary32 (round to nearest, ties to even, gradual underflow).  Overflow to an
infinity is not represented: `fl32` is used only on values below `2^128`.  A
quotient by zero, whose IEEE value is a NaN or an infinity, is `none`. -/

/-- The integer nearest to `y`, the even one of the two at a tie. -/
def roundEven (y : ℚ) : ℤ :=
  let f := ⌊y⌋
  if y - f < 1 / 2 then f
  else if 1 / 2 < y - f then f + 1
  else if f % 2 = 0 then f
  else f + 1

/-- The binary32 value nearest to `x` (ties to even): 24 significant bits, with
the unit in the last place no smaller than `2^(-149)`. -/
def fl32 (x : ℚ) : ℚ :=
  if x = 0 then 0
  else
    let e : ℤ := max (Int.log 2 |x|) (-126)
    let u : ℚ := 2 ^ (e - 23)
    (roundEven (x / u) : ℚ) * u

/-- The method `contains` with the sums `X + Width` and `Y + Height` rounded. -/
def containsR (rnd : ℚ → ℚ) (q : BHTree) (body : Body) : Bool :=
  decide (body.Position.X ≥ q.boundary.X) &&
  decide (body.Position.X ≤ rnd (q.boundary.X + q.boundary.Width)) &&
  decide (body.Position.Y ≥ q.boundary.Y) &&
  decide (body.Position.Y ≤ rnd (q.boundary.Y + q.boundary.Height))

/-- The method `subdivide` with every quotient and sum rounded; the fields are
listed as in `subdivide`. -/
def subdivideR (rnd : ℚ → ℚ) (bd : Rectangle) : BHTree × BHTree × BHTree × BHTree :=
  let nw : Rectangle := ⟨bd.X, bd.Y, rnd (bd.Width / 2), rnd (bd.Height / 2)⟩
  let ne : Rectangle :=
    ⟨rnd (bd.X + rnd (bd.Width / 2)), bd.Y, rnd (bd.Width / 2), rnd (bd.Height / 2)⟩
  let sw : Rectangle :=
    ⟨bd.X, rnd (bd.Y + rnd (bd.Height / 2)), rnd (bd.Width / 2), rnd (bd.Height / 2)⟩
  let se : Rectangle :=
    ⟨rnd (bd.X + rnd (bd.Width / 2)), rnd (bd.Y + rnd (bd.Height / 2)), rnd (bd.Width / 2),
      rnd (bd.Height / 2)⟩
  (NewBHTree nw, NewBHTree ne, NewBHTree se, NewBHTree sw)

/-- The constructor `NewBody` with the product rounded. -/
def NewBodyR (rnd : ℚ → ℚ) (mass : ℚ) (id : Int) (pos vel : Vector2) : Body :=
  let radius := rnd (mass * RadiusCoeff)
  ⟨mass, pos, vel, radius, id, NewVector2 0 0⟩

/-- The function `AddBody` with every operation rounded.  When the rounded
total mass is zero the quotients are NaN or infinite in the source and `0`
here; the mass, the only field that `Insert` tests, is not concerned. -/
def AddBodyR (rnd : ℚ → ℚ) (b1 b2 : Body) : Body :=
  let m := rnd (b1.Mass + b2.Mass)
  let x := rnd (rnd (rnd (b1.Position.X * b1.Mass) + rnd (b2.Position.X * b2.Mass)) / m)
  let y := rnd (rnd (rnd (b1.Position.Y * b1.Mass) + rnd (b2.Position.Y * b2.Mass)) / m)
  let dx := rnd (rnd (rnd (b1.Velocity.X * b1.Mass) + rnd (b2.Velocity.X * b2.Mass)) / m)
  let dy := rnd (rnd (rnd (b1.Velocity.Y * b1.Mass) + rnd (b2.Velocity.Y * b2.Mass)) / m)
  NewBodyR rnd m (-1) (NewVector2 x y) (NewVector2 dx dy)

/-- The method `Insert` over rounded arithmetic: the text of `Insert` with
`containsR`, `subdivideR` and `AddBodyR`. -/
def InsertR (rnd : ℚ → ℚ) (q : BHTree) (body : Body) (depth : Nat) : BHTree :=
  match q with
  | node bd b nw ne sw se =>
    if b.Mass = 0 then node bd body nw ne sw se
    else
      let b1 := AddBodyR rnd b body
      if containsR rnd nw body then node bd b1 (InsertR rnd nw body (depth + 1)) ne sw se
      else if containsR rnd ne body then node bd b1 nw (InsertR rnd ne body (depth + 1)) sw se
      else if containsR rnd sw body then node bd b1 nw ne (InsertR rnd sw body (depth + 1)) se
      else node bd b1 nw ne sw (InsertR rnd se body (depth + 1))
  | leaf bd b =>
    if b.Mass = 0 then leaf bd body
    else
      let otherBody := b
      let b1 := AddBodyR rnd otherBody body
      if _h : depth + 1 < maxDepth then
        let kids := subdivideR rnd bd
        let kids1 : BHTree × BHTree × BHTree × BHTree :=
          if containsR rnd kids.1 body then
            (InsertR rnd kids.1 body (depth + 1), kids.2.1, kids.2.2.1, kids.2.2.2)
          else if containsR rnd kids.2.1 body then
            (kids.1, InsertR rnd kids.2.1 body (depth + 1), kids.2.2.1, kids.2.2.2)
          else if containsR rnd kids.2.2.1 body then
            (kids.1, kids.2.1, InsertR rnd kids.2.2.1 body (depth + 1), kids.2.2.2)
          else (kids.1, kids.2.1, kids.2.2.1, InsertR rnd kids.2.2.2 body (depth + 1))
        if containsR rnd kids1.1 otherBody then
          node bd b1 (InsertR rnd kids1.1 otherBody (depth + 1)) kids1.2.1 kids1.2.2.1
            kids1.2.2.2
        else if containsR rnd kids1.2.1 otherBody then
          node bd b1 kids1.1 (InsertR rnd kids1.2.1 otherBody (depth + 1)) kids1.2.2.1
            kids1.2.2.2
        else if containsR rnd kids1.2.2.1 otherBody then
          node bd b1 kids1.1 kids1.2.1 (InsertR rnd kids1.2.2.1 otherBody (depth + 1))
            kids1.2.2.2
        else
          node bd b1 kids1.1 kids1.2.1 kids1.2.2.1
            (InsertR rnd kids1.2.2.2 otherBody (depth + 1))
      else leaf bd b1
termination_by (maxDepth - depth, sizeOf q)
decreasing_by
  all_goals simp_wf
  all_goals first
    | (apply Prod.Lex.left; omega)
    | (by_cases hd : depth < maxDepth
       · apply Prod.Lex.left; omega
       · have e : maxDepth - (depth + 1) = maxDepth - depth := by omega
         rw [e]; apply Prod.Lex.right; omega)

/-- The property `Contained` with the test `containsR rnd`. -/
def ContainedR (rnd : ℚ → ℚ) : List Rectangle → BHTree → Prop
  | anc, leaf bd b => b.Mass ≠ 0 → ∀ r ∈ bd :: anc, containsR rnd (NewBHTree r) b = true
  | anc, node bd _ nw ne sw se =>
    ContainedR rnd (bd :: anc) nw ∧ ContainedR rnd (bd :: anc) ne ∧
    ContainedR rnd (bd :: anc) sw ∧ ContainedR rnd (bd :: anc) se

/-- One routing step of `InsertR` at a divided node (see `routeInto`). -/
def routeIntoR (rnd : ℚ → ℚ) : BHTree → Body → Nat → BHTree
  | leaf bd b, _, _ => leaf bd b
  | node bd b nw ne sw se, x, d =>
    if containsR rnd nw x then node bd b (InsertR rnd nw x d) ne sw se
    else if containsR rnd ne x then node bd b nw (InsertR rnd ne x d) sw se
    else if containsR rnd sw x then node bd b nw ne (InsertR rnd sw x d) se
    else node bd b nw ne sw (InsertR rnd se x d)

/-- First body of the binary32 containment example (window `11184811`). -/
def roundA : Body := NewBody 1 0 ⟨8388609, 0⟩ ⟨0, 0⟩

/-- Second body of the binary32 containment example, on the right edge of the
window. -/
def roundB : Body := NewBody 1 1 ⟨11184811, 0⟩ ⟨0, 0⟩

/-- The binary32 value nearest to the square root of `x`, for `x > 0`: the
value of `float32(math.Sqrt(float64(x)))` on a binary32 `x`, the root taken in
binary64 and rounded again being the correctly rounded binary32 root.  With
`2^(2e) ≤ x < 2^(2e+2)` the root lies in `[2^e, 2^(e+1))`, where the binary32
values are the multiples `n * 2^(e-23)`; no root of a binary32 value is half
way between two of them.  The value at `0` is `0`. -/
def sqrt32 (x : ℚ) : ℚ :=
  if x ≤ 0 then 0
  else
    let e : ℤ := Int.log 2 x / 2
    let u : ℚ := 2 ^ (e - 23)
    let y : ℚ := x / (u * u)
    let n : ℕ := Nat.sqrt ⌊y⌋.toNat
    if y < ((n : ℚ) + 1 / 2) * ((n : ℚ) + 1 / 2) then (n : ℚ) * u else ((n : ℚ) + 1) * u

/-- The function `raymath.Vector2Distance` with every operation rounded by `rnd`
and the square root taken by `sq`. -/
def Vector2DistanceR (rnd sq : ℚ → ℚ) (v1 v2 : Vector2) : ℚ :=
  sq (rnd (rnd (rnd (v1.X - v2.X) * rnd (v1.X - v2.X)) +
    rnd (rnd (v1.Y - v2.Y) * rnd (v1.Y - v2.Y))))

/-- The method `Body.AddForce` with every operation rounded and the quotients
by zero of IEEE arithmetic.  The two divisors are the clamped distance and its
rounded square.  When one of them is zero, `Vector2Divide` or the quotient
`strength` is infinite or NaN, so are both components of the scaled force, and
both components of the new `Force` are infinite or NaN: this outcome is
`none`.  Otherwise the result is the receiver `b` after the update. -/
def AddForceR (rnd sq : ℚ → ℚ) (b other : Body) : Option Body :=
  let distance := Vector2DistanceR rnd sq b.Position other.Position
  let distance := Clamp distance (max b.Radius other.Radius) MaxDistance
  let force : Vector2 :=
    ⟨rnd (other.Position.X - b.Position.X), rnd (other.Position.Y - b.Position.Y)⟩
  if distance = 0 ∨ rnd (distance * distance) = 0 then none
  else
    let force : Vector2 := ⟨rnd (force.X / distance), rnd (force.Y / distance)⟩
    let strength := rnd (rnd (G * other.Mass) / rnd (distance * distance))
    let force : Vector2 := ⟨rnd (force.X * strength), rnd (force.Y * strength)⟩
    some { b with Force := ⟨rnd (b.Force.X + force.X), rnd (b.Force.Y + force.Y)⟩ }

/-- The test `s/d < theta` with the quotient and the constant rounded (see
`ratioBelowTheta` for the quotient by zero). -/
def ratioBelowThetaR (rnd : ℚ → ℚ) (s d : ℚ) : Bool :=
  if d = 0 then decide (s < 0) else decide (rnd (s / d) < rnd theta)

/-- The method `CalculateForces` over `AddForceR`: the target `body` after the
update, or `none` when its `Force` has become infinite or NaN (a `Force` that
is infinite or NaN stays so under the later additions). -/
def CalculateForcesR (rnd sq : ℚ → ℚ) : BHTree → Body → Option Body
  | leaf _ qb, body =>
    if body.Mass = 0 ∨ qb.Id = body.Id then some body
    else AddForceR rnd sq body qb
  | node bd qb nw ne sw se, body =>
    if body.Mass = 0 ∨ qb.Id = body.Id then some body
    else
      let s := bd.Width
      let d := Vector2DistanceR rnd sq qb.Position body.Position
      if ratioBelowThetaR rnd s d then AddForceR rnd sq body qb
      else
        match CalculateForcesR rnd sq nw body with
        | none => none
        | some body1 =>
          match CalculateForcesR rnd sq ne body1 with
          | none => none
          | some body2 =>
            match CalculateForcesR rnd sq sw body2 with
            | none => none
            | some body3 => CalculateForcesR rnd sq se body3

/-- A target of mass `2^(-100)` and id 1 at the origin; its radius is
`3 * 2^(-100)`. -/
def tinyTarget : Body := NewBody (1 / 2 ^ 100) 1 ⟨0, 0⟩ ⟨0, 0⟩

/-- A target of mass `-1` and id 1 at the origin; its radius is `-3`. -/
def negativeTarget : Body := NewBody (-1) 1 ⟨0, 0⟩ ⟨0, 0⟩

/-- A target of mass 1 and id 1 at the origin. -/
def originTarget : Body := NewBody 1 1 ⟨0, 0⟩ ⟨0, 0⟩

/-! # Proofs -/

/-! ## Unfolding `Insert` -/

theorem Insert_leaf_empty (bd : Rectangle) (b x : Body) (d : Nat) (h : b.Mass = 0) :
    Insert (leaf bd b) x d = leaf bd x := by
  rw [Insert]; simp [h]

theorem Insert_leaf_limit (bd : Rectangle) (b x : Body) (d : Nat) (h : b.Mass ≠ 0)
    (hd : ¬ d + 1 < maxDepth) :
    Insert (leaf bd b) x d = leaf bd (AddBody b x) := by
  rw [Insert]; simp [h, hd]

theorem Insert_node_zero (bd : Rectangle) (b : Body) (nw ne sw se : BHTree) (x : Body) (d : Nat)
    (h : b.Mass = 0) : Insert (node bd b nw ne sw se) x d = node bd x nw ne sw se := by
  rw [Insert]; simp [h]

theorem Insert_node (bd : Rectangle) (b : Body) (nw ne sw se : BHTree) (x : Body) (d : Nat)
    (h : b.Mass ≠ 0) :
    Insert (node bd b nw ne sw se) x d = routeInto (node bd (AddBody b x) nw ne sw se) x (d + 1) := by
  rw [Insert]; simp [h, routeInto]

theorem Insert_leaf_sub (bd : Rectangle) (b x : Body) (d : Nat) (h : b.Mass ≠ 0)
    (hd : d + 1 < maxDepth) :
    Insert (leaf bd b) x d =
      routeInto (routeInto (node bd (AddBody b x) (subdivide bd).1 (subdivide bd).2.1
        (subdivide bd).2.2.1 (subdivide bd).2.2.2) x (d + 1)) b (d + 1) := by
  rw [Insert]; simp only [h, hd, if_false, dite_true]
  simp only [routeInto]
  split_ifs <;> simp_all [routeInto]


/-- Induction along the calls of `Insert`: at a divided node the calls on the
children, at an undivided node below the depth limit any call one level down. -/
theorem Insert_induction (P : BHTree → Body → Nat → Prop)
    (hleaf : ∀ bd b x d, (d + 1 < maxDepth → ∀ t y, P t y (d + 1)) → P (leaf bd b) x d)
    (hnode : ∀ bd b nw ne sw se x d, P nw x (d + 1) → P ne x (d + 1) → P sw x (d + 1) →
      P se x (d + 1) → P (node bd b nw ne sw se) x d) :
    ∀ q x d, P q x d := by
  have key : ∀ n, ∀ d, maxDepth - d = n → ∀ q x, P q x d := by
    intro n
    induction n using Nat.strong_induction_on with
    | _ n ih =>
      intro d hd q
      induction q generalizing d with
      | leaf bd b =>
        intro x
        apply hleaf
        intro hlt t y
        exact ih (maxDepth - (d + 1)) (by omega) (d + 1) rfl t y
      | node bd b nw ne sw se ihnw ihne ihsw ihse =>
        intro x
        by_cases hlt : d < maxDepth
        · have h1 : ∀ t y, P t y (d + 1) := fun t y =>
            ih (maxDepth - (d + 1)) (by omega) (d + 1) rfl t y
          exact hnode bd b nw ne sw se x d (h1 _ _) (h1 _ _) (h1 _ _) (h1 _ _)
        · have e : maxDepth - (d + 1) = n := by omega
          exact hnode bd b nw ne sw se x d (ihnw (d + 1) e x) (ihne (d + 1) e x)
            (ihsw (d + 1) e x) (ihse (d + 1) e x)
  intro q x d
  exact key _ d rfl q x

theorem boundary_routeInto (t : BHTree) (x : Body) (d : Nat) :
    (routeInto t x d).boundary = t.boundary := by
  cases t with
  | leaf bd b => rfl
  | node bd b nw ne sw se =>
    simp only [routeInto]
    split_ifs <;> rfl

theorem boundary_Insert (q : BHTree) (x : Body) (d : Nat) :
    (Insert q x d).boundary = q.boundary := by
  cases q with
  | leaf bd b =>
    by_cases h : b.Mass = 0
    · rw [Insert_leaf_empty _ _ _ _ h]; rfl
    · by_cases hd : d + 1 < maxDepth
      · rw [Insert_leaf_sub _ _ _ _ h hd, boundary_routeInto, boundary_routeInto]; rfl
      · rw [Insert_leaf_limit _ _ _ _ h hd]; rfl
  | node bd b nw ne sw se =>
    by_cases h : b.Mass = 0
    · rw [Insert_node_zero _ _ _ _ _ _ _ _ h]; rfl
    · rw [Insert_node _ _ _ _ _ _ _ _ h, boundary_routeInto]; rfl

theorem contains_congr (q q1 : BHTree) (x y : Body) (hq : q.boundary = q1.boundary)
    (hp : x.Position = y.Position) : q.contains x = q1.contains y := by
  simp only [BHTree.contains, hq, hp]

theorem contains_Insert (q : BHTree) (x y : Body) (d : Nat) :
    (Insert q x d).contains y = q.contains y :=
  contains_congr _ _ _ _ (boundary_Insert q x d) rfl

/-! ## Evaluation helpers -/

theorem insertAll_nil (t : BHTree) : insertAll t [] = t := rfl

theorem insertAll_cons (t : BHTree) (b : Body) (bs : List Body) :
    insertAll t (b :: bs) = insertAll (Insert t b 0) bs := rfl

theorem insertAll_append (t : BHTree) (bs cs : List Body) :
    insertAll t (bs ++ cs) = insertAll (insertAll t bs) cs := by
  simp [insertAll, List.foldl_append]

theorem Rat_sqrt_of_sq (q r : ℚ) (hr : 0 ≤ r) (h : q = r * r) : Rat.sqrt q = r := by
  rw [h, Rat.sqrt_eq, abs_of_nonneg hr]

theorem emptyBody_Mass : emptyBody.Mass = 0 := rfl

theorem one_lt_maxDepth : (0 : Nat) + 1 < maxDepth := by norm_num [maxDepth]

/-! ## C3: the force beyond `MaxDistance` -/

/-- C3 (the code departs from the claim): for the target at the origin, a body
of mass 1 at distance 5000 and a body of mass 1 in the same direction at
distance exactly `MaxDistance = 2500` (all radii are 3), `AddForce` adds the
force `(1/3125000, 0)` for the far body and `(1/6250000, 0)` for the body at
`MaxDistance`: the displacement is divided by the clamped distance, so beyond
`MaxDistance` the force still grows with the separation. -/
theorem C3_force_beyond_MaxDistance_differs :
    Vector2Distance farTarget.Position farBody.Position = 5000 ∧
    Vector2Distance farTarget.Position limitBody.Position = MaxDistance ∧
    farBody.Mass = limitBody.Mass ∧
    farTarget.Force = ⟨0, 0⟩ ∧
    (AddForce farTarget farBody).Force = ⟨1 / 3125000, 0⟩ ∧
    (AddForce farTarget limitBody).Force = ⟨1 / 6250000, 0⟩ := by
  have d1 : Vector2Distance farTarget.Position farBody.Position = 5000 := by
    unfold Vector2Distance
    exact Rat_sqrt_of_sq _ _ (by norm_num) (by norm_num [farTarget, farBody, NewBody])
  have d2 : Vector2Distance farTarget.Position limitBody.Position = 2500 := by
    unfold Vector2Distance
    exact Rat_sqrt_of_sq _ _ (by norm_num) (by norm_num [farTarget, limitBody, NewBody])
  refine ⟨d1, d2, rfl, rfl, ?_, ?_⟩
  · simp only [AddForce, d1]
    norm_num [Clamp, MaxDistance, G, Vector2Subtract, Vector2Divide, Vector2Scale, Vector2Add,
      farTarget, farBody, NewBody, NewVector2, RadiusCoeff]
  · simp only [AddForce, d2]
    norm_num [Clamp, MaxDistance, G, Vector2Subtract, Vector2Divide, Vector2Scale, Vector2Add,
      farTarget, limitBody, NewBody, NewVector2, RadiusCoeff]

/-! ## C4: routing order -/

/-- C4 (the code departs from the claim): in the window `100 x 100`, after the
bodies at `(10, 10)` and `(60, 10)` the root is divided; the body at `(50, 75)`,
on the edge shared by the south-west rectangle `(0, 50, 50, 50)` and the
south-east rectangle `(50, 50, 50, 50)`, is then stored in the child whose
boundary is the south-east rectangle (the field `sw`), and the child covering
the south-west rectangle stays empty, although the south-west rectangle is the
first of NW, NE, SW, SE that contains the position. -/
theorem C4_edge_body_stored_in_south_east :
    (NewBHTree ⟨0, 0, 50, 50⟩).contains bodyEdge = false ∧
    (NewBHTree ⟨50, 0, 50, 50⟩).contains bodyEdge = false ∧
    (NewBHTree ⟨0, 50, 50, 50⟩).contains bodyEdge = true ∧
    Insert (insertAll (NewBHTree ⟨0, 0, 100, 100⟩) [bodyNW, bodyNE]) bodyEdge 0 =
      node ⟨0, 0, 100, 100⟩ (AddBody (AddBody bodyNW bodyNE) bodyEdge)
        (leaf ⟨0, 0, 50, 50⟩ bodyNW) (leaf ⟨50, 0, 50, 50⟩ bodyNE)
        (leaf ⟨50, 50, 50, 50⟩ bodyEdge) (leaf ⟨0, 50, 50, 50⟩ emptyBody) := by
  have hA : bodyNW.Mass ≠ 0 := by norm_num [bodyNW, NewBody]
  have hAC : (AddBody bodyNW bodyNE).Mass ≠ 0 := by norm_num [bodyNW, bodyNE, AddBody, NewBody]
  have e1 : Insert (NewBHTree ⟨0, 0, 100, 100⟩) bodyNW 0 = leaf ⟨0, 0, 100, 100⟩ bodyNW :=
    Insert_leaf_empty _ _ _ _ emptyBody_Mass
  have e2 : Insert (leaf ⟨0, 0, 100, 100⟩ bodyNW) bodyNE 0 =
      node ⟨0, 0, 100, 100⟩ (AddBody bodyNW bodyNE) (leaf ⟨0, 0, 50, 50⟩ bodyNW)
        (leaf ⟨50, 0, 50, 50⟩ bodyNE) (leaf ⟨50, 50, 50, 50⟩ emptyBody)
        (leaf ⟨0, 50, 50, 50⟩ emptyBody) := by
    rw [Insert_leaf_sub _ _ _ _ hA one_lt_maxDepth]
    norm_num [routeInto, subdivide, NewBHTree, BHTree.contains, BHTree.boundary,
      Insert_leaf_empty _ _ _ _ emptyBody_Mass, bodyNW, bodyNE, NewBody]
  have e3 : Insert (node ⟨0, 0, 100, 100⟩ (AddBody bodyNW bodyNE) (leaf ⟨0, 0, 50, 50⟩ bodyNW)
        (leaf ⟨50, 0, 50, 50⟩ bodyNE) (leaf ⟨50, 50, 50, 50⟩ emptyBody)
        (leaf ⟨0, 50, 50, 50⟩ emptyBody)) bodyEdge 0 =
      node ⟨0, 0, 100, 100⟩ (AddBody (AddBody bodyNW bodyNE) bodyEdge)
        (leaf ⟨0, 0, 50, 50⟩ bodyNW) (leaf ⟨50, 0, 50, 50⟩ bodyNE)
        (leaf ⟨50, 50, 50, 50⟩ bodyEdge) (leaf ⟨0, 50, 50, 50⟩ emptyBody) := by
    rw [Insert_node _ _ _ _ _ _ _ _ hAC]
    norm_num [routeInto, BHTree.contains, BHTree.boundary,
      Insert_leaf_empty _ _ _ _ emptyBody_Mass, bodyEdge, NewBody]
  refine ⟨?_, ?_, ?_, ?_⟩
  · norm_num [NewBHTree, BHTree.contains, BHTree.boundary, bodyEdge, NewBody]
  · norm_num [NewBHTree, BHTree.contains, BHTree.boundary, bodyEdge, NewBody]
  · norm_num [NewBHTree, BHTree.contains, BHTree.boundary, bodyEdge, NewBody]
  · rw [insertAll_cons, insertAll_cons, insertAll_nil, e1, e2, e3]

/-! ## C7: the shards of the workers -/

theorem shardRanges_eq (N T : Nat) :
    shardRanges N T =
      (List.range (if N / T = 0 then N else T)).map fun i =>
        ((if N / T = 0 then 1 else N / T) * i,
          if i = (if N / T = 0 then N else T) - 1 then N
          else (if N / T = 0 then 1 else N / T) * i + (if N / T = 0 then 1 else N / T)) := rfl

/-- Arithmetic facts about the shard length and the number of workers. -/
theorem shard_params (N T : Nat) (hT : 1 ≤ T) :
    1 ≤ (if N / T = 0 then 1 else N / T) ∧
    (if N / T = 0 then 1 else N / T) * (if N / T = 0 then N else T) ≤ N ∧
    (0 < N → 0 < (if N / T = 0 then N else T)) := by
  by_cases h : N / T = 0
  · simp [h]
  · simp only [h, if_false]
    exact ⟨Nat.pos_of_ne_zero h, Nat.div_mul_le_self N T, fun _ => hT⟩

/-- C7: for `N` bodies and `T ≥ 1` configured threads, every range handed to a
worker satisfies `min ≤ max ≤ N`, the ranges are pairwise disjoint (each ends
before the next ones start), and every index `k < N` lies in the range of
exactly one worker. -/
theorem C7_shards_partition (N T : Nat) (hT : 1 ≤ T) :
    (∀ r ∈ shardRanges N T, r.1 ≤ r.2 ∧ r.2 ≤ N) ∧
    (shardRanges N T).Pairwise (fun r s => r.2 ≤ s.1) ∧
    (∀ k, k < N → ∃! i : Nat, ∃ r : Nat × Nat, (shardRanges N T)[i]? = some r ∧ r.1 ≤ k ∧ k < r.2) := by
  obtain ⟨hs, hsT, hpos⟩ := shard_params N T hT
  rw [shardRanges_eq]
  generalize (if N / T = 0 then 1 else N / T) = s at hs hsT ⊢
  generalize (if N / T = 0 then N else T) = T1 at hsT hpos ⊢
  have hlast : ∀ i, i < T1 → s * i + s ≤ N := by
    intro i hi
    calc s * i + s = s * (i + 1) := by ring
      _ ≤ s * T1 := Nat.mul_le_mul_left s hi
      _ ≤ N := hsT
  have hget : ∀ i (r : Nat × Nat),
      ((List.range T1).map fun i =>
        (s * i, if i = T1 - 1 then N else s * i + s))[i]? = some r ↔
      i < T1 ∧ r = (s * i, if i = T1 - 1 then N else s * i + s) := by
    intro i r
    rw [List.getElem?_map]
    by_cases hi : i < T1
    · rw [List.getElem?_range hi]
      simp [hi, eq_comm]
    · rw [List.getElem?_eq_none (by simpa using hi)]
      simp [hi]
  refine ⟨?_, ?_, ?_⟩
  · intro r hr
    simp only [List.mem_map, List.mem_range] at hr
    obtain ⟨i, hi, rfl⟩ := hr
    have := hlast i hi
    by_cases hl : i = T1 - 1
    · simp only [hl, if_true]; rw [← hl]; omega
    · simp only [hl, if_false]; omega
  · rw [List.pairwise_map]
    refine List.Pairwise.imp_of_mem ?_ (List.pairwise_lt_range T1)
    intro i j hi hj hij
    simp only [List.mem_range] at hi hj
    have hne : i ≠ T1 - 1 := by omega
    simp only [hne, if_false]
    calc s * i + s = s * (i + 1) := by ring
      _ ≤ s * j := Nat.mul_le_mul_left s hij
  · intro k hk
    have hT1 : 0 < T1 := hpos (by omega)
    have hmul : ∀ i j, i < j → s * i + s ≤ s * j := by
      intro i j hij
      calc s * i + s = s * (i + 1) := by ring
        _ ≤ s * j := Nat.mul_le_mul_left s hij
    have huniq : ∀ i j r r1, i < j →
        (i < T1 ∧ r = (s * i, if i = T1 - 1 then N else s * i + s)) → r.1 ≤ k → k < r.2 →
        (j < T1 ∧ r1 = (s * j, if j = T1 - 1 then N else s * j + s)) → r1.1 ≤ k → k < r1.2 →
        False := by
      intro i j r r1 hij hi h1 h2 hj h3 h4
      obtain ⟨hi, rfl⟩ := hi
      obtain ⟨hj, rfl⟩ := hj
      have hne : i ≠ T1 - 1 := by omega
      simp only [hne, if_false] at h2
      have := hmul i j hij
      simp only at h3
      omega
    have hex : ∃ i, ∃ r, (i < T1 ∧ r = (s * i, if i = T1 - 1 then N else s * i + s)) ∧
        r.1 ≤ k ∧ k < r.2 := by
      by_cases hc : k / s < T1 - 1
      · refine ⟨k / s, _, ⟨by omega, rfl⟩, Nat.mul_div_le k s, ?_⟩
        have hne : k / s ≠ T1 - 1 := by omega
        simp only [hne, if_false]
        calc k < s * (k / s + 1) := Nat.lt_mul_div_succ k hs
          _ = s * (k / s) + s := by ring
      · refine ⟨T1 - 1, _, ⟨by omega, rfl⟩, ?_, ?_⟩
        · have h1 : T1 - 1 ≤ k / s := by omega
          calc s * (T1 - 1) ≤ s * (k / s) := Nat.mul_le_mul_left s h1
            _ ≤ k := Nat.mul_div_le k s
        · simp only [if_true]; exact hk
    obtain ⟨i, r, hir, h1, h2⟩ := hex
    refine ⟨i, ⟨r, (hget i r).mpr hir, h1, h2⟩, ?_⟩
    rintro j ⟨r1, hjr, h3, h4⟩
    have hjr := (hget j r1).mp hjr
    rcases Nat.lt_trichotomy j i with hlt | heq | hgt
    · exact (huniq j i r1 r hlt hjr h3 h4 hir h1 h2).elim
    · exact heq
    · exact (huniq i j r r1 hgt hir h1 h2 hjr h3 h4).elim

/-- Instance of C7 for 10 bodies and 3 threads. -/
theorem C7_shards_partition_witness :
    1 ≤ 3 ∧
    ((∀ r ∈ shardRanges 10 3, r.1 ≤ r.2 ∧ r.2 ≤ 10) ∧
    (shardRanges 10 3).Pairwise (fun r s => r.2 ≤ s.1) ∧
    (∀ k, k < 10 → ∃! i : Nat, ∃ r : Nat × Nat, (shardRanges 10 3)[i]? = some r ∧ r.1 ≤ k ∧ k < r.2)) :=
  ⟨by decide, C7_shards_partition 10 3 (by decide)⟩

/-! ## C6: a single body moves on a straight line -/

theorem addToTree_single (W H : Int) (b : Body) :
    addToTree W H [b] = leaf ⟨0, 0, (W : ℚ), (H : ℚ)⟩ b := by
  unfold addToTree
  rw [insertAll_cons, insertAll_nil, NewBHTree, Insert_leaf_empty _ _ _ _ emptyBody_Mass]

theorem CalculateForces_self (bd : Rectangle) (b : Body) :
    CalculateForces (leaf bd b) b = b := by
  simp [CalculateForces]

/-- One step of a body that carries no force. -/
theorem step_free (b : Body) (hF : b.Force = ⟨0, 0⟩) :
    ZeroForce (Update b) =
      { b with Position := ⟨b.Position.X + dt * b.Velocity.X, b.Position.Y + dt * b.Velocity.Y⟩ } := by
  cases b with
  | mk m p v r i f =>
    cases p; cases v
    simp only at hF
    subst hF
    simp [ZeroForce, Update, Vector2Scale, Vector2Add, NewVector2, mul_comm]

theorem seqProcess_single_none (W H : Int) (b : Body) (hF : b.Force = ⟨0, 0⟩) :
    seqProcess W H [b] none =
      some ([{ b with Position :=
        ⟨b.Position.X + dt * b.Velocity.X, b.Position.Y + dt * b.Velocity.Y⟩ }], none) := by
  simp only [seqProcess, addToTree_single, seqLoop, CalculateForces_self, step_free b hF,
    Option.map_some']

theorem seqProcess_single_some (W H : Int) (b : Body) (hF : b.Force = ⟨0, 0⟩) (r : Record) :
    seqProcess W H [b] (some [some r]) =
      some ([{ b with Position :=
        ⟨b.Position.X + dt * b.Velocity.X, b.Position.Y + dt * b.Velocity.Y⟩ }],
        some [some { r with Position := r.Position ++
          [(b.Position.X + dt * b.Velocity.X, b.Position.Y + dt * b.Velocity.Y)] }]) := by
  simp [seqProcess, addToTree_single, seqLoop, CalculateForces_self, step_free b hF]

theorem seqIterate_single_none (W H : Int) (m : ℚ) (id : Int) (v0 : Vector2) (k : Nat) :
    ∀ p : Vector2, seqIterate W H k [{ NewBody m id p v0 with Position := p }] none =
      some ([{ NewBody m id p v0 with
        Position := ⟨p.X + k * dt * v0.X, p.Y + k * dt * v0.Y⟩ }], none) := by
  induction k with
  | zero => intro p; simp [seqIterate, NewBody]
  | succ k ih =>
    intro p
    rw [seqIterate, seqProcess_single_none _ _ _ rfl]
    simp only [NewBody] at ih ⊢
    rw [ih]
    simp only [Nat.cast_add, Nat.cast_one, Option.some.injEq, Prod.mk.injEq, and_true,
      List.cons.injEq, Body.mk.injEq, Vector2.mk.injEq, true_and]
    constructor <;> ring

theorem seqIterate_single_some (W H : Int) (m : ℚ) (id : Int) (v0 : Vector2) (k : Nat) :
    ∀ (p : Vector2) (r : Record),
      seqIterate W H k [{ NewBody m id p v0 with Position := p }] (some [some r]) =
      some ([{ NewBody m id p v0 with
        Position := ⟨p.X + k * dt * v0.X, p.Y + k * dt * v0.Y⟩ }],
        some [some { r with Position := r.Position ++
          (List.range k).map fun i =>
            (p.X + ((i + 1 : Nat) : ℚ) * dt * v0.X, p.Y + ((i + 1 : Nat) : ℚ) * dt * v0.Y) }]) := by
  induction k with
  | zero => intro p r; simp [seqIterate, NewBody]
  | succ k ih =>
    intro p r
    rw [seqIterate, seqProcess_single_some _ _ _ rfl]
    simp only [NewBody] at ih ⊢
    rw [ih]
    simp only [Nat.cast_add, Nat.cast_one, Option.some.injEq, Prod.mk.injEq,
      List.cons.injEq, Body.mk.injEq, Vector2.mk.injEq, true_and, and_true]
    refine ⟨⟨by ring, by ring⟩, ?_⟩
    congr 1
    rw [List.append_assoc]
    congr 1
    rw [List.range_succ_eq_map, List.map_cons, List.map_map]
    simp only [List.singleton_append, Nat.cast_zero, zero_add, one_mul, List.cons.injEq,
      true_and]
    apply List.map_congr_left
    intro i _
    simp only [Function.comp, Nat.cast_succ, Prod.mk.injEq]
    constructor <;> ring

/-- C6: a single body `NewBody m id p0 v0` keeps, after any number `k` of
sequential steps, its velocity `v0` and a zero force, and stands at
`p0 + k * dt * v0`; in console mode (id 0) the record holds the samples
`p0 + i * dt * v0` for `i = 0, ..., k`; for mass 1, `p0 = (500, 500)`,
`v0 = (1, 0)` and 3 steps the samples are `(500,500)`, `(500.4,500)`,
`(500.8,500)`, `(501.2,500)`. -/
theorem C6_single_body_straight_line (W H : Int) (m : ℚ) (id : Int) (p0 v0 : Vector2) (k : Nat) :
    (∃ b : Body, seqIterate W H k [NewBody m id p0 v0] none = some ([b], none) ∧
      b.Velocity = v0 ∧ b.Force = ⟨0, 0⟩ ∧
      b.Position = ⟨p0.X + k * dt * v0.X, p0.Y + k * dt * v0.Y⟩ ∧ b.Mass = m ∧ b.Id = id) ∧
    sequential W H [NewBody m 0 p0 v0] k =
      some [some ⟨0, (List.range (k + 1)).map fun i : Nat =>
        (p0.X + (i : ℚ) * dt * v0.X, p0.Y + (i : ℚ) * dt * v0.Y)⟩] ∧
    sequential 1000 1000 [NewBody 1 0 ⟨500, 500⟩ ⟨1, 0⟩] 3 =
      some [some ⟨0, [(500, 500), (500 + 4 / 10, 500), (500 + 8 / 10, 500),
        (501 + 2 / 10, 500)]⟩] := by
  have hseq : ∀ (W H : Int) (m : ℚ) (p0 v0 : Vector2) (k : Nat),
      sequential W H [NewBody m 0 p0 v0] k =
        some [some ⟨0, (List.range (k + 1)).map fun i : Nat =>
          (p0.X + (i : ℚ) * dt * v0.X, p0.Y + (i : ℚ) * dt * v0.Y)⟩] := by
    intro W H m p0 v0 k
    have hinit : initData [NewBody m 0 p0 v0] = some [some ⟨0, [(p0.X, p0.Y)]⟩] := by
      simp [initData, NewBody, List.replicate]
    have := seqIterate_single_some W H m 0 v0 k p0 ⟨0, [(p0.X, p0.Y)]⟩
    simp only [NewBody] at this
    unfold sequential
    rw [hinit]
    simp only [NewBody]
    rw [this]
    rw [List.range_succ_eq_map, List.map_cons, List.map_map]
    simp [Function.comp]
  refine ⟨⟨{ NewBody m id p0 v0 with
      Position := ⟨p0.X + k * dt * v0.X, p0.Y + k * dt * v0.Y⟩ }, ?_, rfl, rfl, rfl, rfl, rfl⟩,
    hseq W H m p0 v0 k, ?_⟩
  · have := seqIterate_single_none W H m id v0 k p0
    simpa only [NewBody] using this
  · rw [hseq]
    norm_num [List.range_succ, dt]

/-! ## C5: self-force exclusion -/

theorem Vector2Distance_of_sq (v1 v2 : Vector2) (r : ℚ) (hr : 0 ≤ r)
    (h : (v1.X - v2.X) * (v1.X - v2.X) + (v1.Y - v2.Y) * (v1.Y - v2.Y) = r * r) :
    Vector2Distance v1 v2 = r :=
  Rat_sqrt_of_sq _ _ hr h

theorem selfTree_eq :
    addToTree 100 100 [selfTarget, selfOther] =
      node ⟨0, 0, 100, 100⟩ (AddBody selfTarget selfOther)
        (leaf ⟨0, 0, 50, 50⟩ selfTarget) (leaf ⟨50, 0, 50, 50⟩ emptyBody)
        (leaf ⟨50, 50, 50, 50⟩ selfOther) (leaf ⟨0, 50, 50, 50⟩ emptyBody) := by
  have hA : selfTarget.Mass ≠ 0 := by norm_num [selfTarget, NewBody]
  unfold addToTree
  rw [insertAll_cons, insertAll_cons, insertAll_nil, NewBHTree,
    Insert_leaf_empty _ _ _ _ emptyBody_Mass]
  norm_num
  rw [Insert_leaf_sub _ _ _ _ hA one_lt_maxDepth]
  norm_num [routeInto, subdivide, NewBHTree, BHTree.contains, BHTree.boundary,
    Insert_leaf_empty _ _ _ _ emptyBody_Mass, selfTarget, selfOther, NewBody]

/-- C5 (counterexample): in the window `100 x 100` with the bodies
`selfTarget` (id 0, mass 1, at `(0,0)`) and `selfOther` (id 1, mass 18, at
`(95, 99.75)`), both inside the root rectangle, the only force term of `CalculateForces` for `selfTarget` is the
root aggregate, whose mass `19` includes the mass of the target itself; the
force it gives differs from the force due to `selfOther` alone. -/
theorem C5_self_mass_in_force_term :
    (NewBHTree ⟨0, 0, 100, 100⟩).contains selfTarget = true ∧
    (NewBHTree ⟨0, 0, 100, 100⟩).contains selfOther = true ∧
    forceTerms (addToTree 100 100 [selfTarget, selfOther]) selfTarget =
      [AddBody selfTarget selfOther] ∧
    (AddBody selfTarget selfOther).Mass = selfTarget.Mass + selfOther.Mass ∧
    (CalculateForces (addToTree 100 100 [selfTarget, selfOther]) selfTarget).Force =
      (AddForce selfTarget (AddBody selfTarget selfOther)).Force ∧
    (AddForce selfTarget (AddBody selfTarget selfOther)).Force ≠
      (AddForce selfTarget selfOther).Force := by
  have hd : Vector2Distance (AddBody selfTarget selfOther).Position selfTarget.Position
      = 261 / 2 :=
    Vector2Distance_of_sq _ _ _ (by norm_num)
      (by norm_num [AddBody, selfTarget, selfOther, NewBody, NewVector2])
  have hd1 : Vector2Distance selfTarget.Position (AddBody selfTarget selfOther).Position
      = 261 / 2 :=
    Vector2Distance_of_sq _ _ _ (by norm_num)
      (by norm_num [AddBody, selfTarget, selfOther, NewBody, NewVector2])
  have hd2 : Vector2Distance selfTarget.Position selfOther.Position = 551 / 4 :=
    Vector2Distance_of_sq _ _ _ (by norm_num)
      (by norm_num [selfTarget, selfOther, NewBody, NewVector2])
  have hr : ratioBelowTheta 100 (261 / 2) = true := by
    norm_num [ratioBelowTheta, theta]
  have hm : ¬ (selfTarget.Mass = 0 ∨ (AddBody selfTarget selfOther).Id = selfTarget.Id) := by
    norm_num [selfTarget, AddBody, NewBody]
  refine ⟨?_, ?_, ?_, rfl, ?_, ?_⟩
  · norm_num [NewBHTree, BHTree.contains, BHTree.boundary, selfTarget, NewBody]
  · norm_num [NewBHTree, BHTree.contains, BHTree.boundary, selfOther, NewBody]
  · rw [selfTree_eq]
    simp only [forceTerms, hm, hd, hr, if_true, if_false]
  · rw [selfTree_eq]
    simp only [CalculateForces, hm, hd, hr, if_true, if_false]
  · intro h
    have hx := congrArg Vector2.X h
    simp only [AddForce, hd1, hd2] at hx
    norm_num [Clamp, MaxDistance, G, Vector2Subtract, Vector2Divide, Vector2Scale, Vector2Add,
      selfTarget, selfOther, AddBody, NewBody, NewVector2, RadiusCoeff] at hx

/-- The force on the target is the sum of the forces of its force terms. -/
theorem CalculateForces_eq_foldl (q : BHTree) (target : Body) :
    CalculateForces q target = (forceTerms q target).foldl AddForce target := by
  induction q generalizing target with
  | leaf bd qb =>
    simp only [CalculateForces, forceTerms]
    split_ifs <;> rfl
  | node bd qb nw ne sw se ihnw ihne ihsw ihse =>
    simp only [CalculateForces, forceTerms]
    split_ifs
    · rfl
    · rfl
    · rw [List.foldl_append, List.foldl_append, List.foldl_append, ← ihnw, ← ihne, ← ihsw,
        ← ihse]

theorem AddForce_Id (b other : Body) : (AddForce b other).Id = b.Id := rfl

theorem CalculateForces_Id (q : BHTree) (target : Body) :
    (CalculateForces q target).Id = target.Id := by
  induction q generalizing target with
  | leaf bd qb =>
    simp only [CalculateForces]
    split_ifs <;> rfl
  | node bd qb nw ne sw se ihnw ihne ihsw ihse =>
    simp only [CalculateForces]
    split_ifs
    · rfl
    · rfl
    · rw [ihse, ihsw, ihne, ihnw]

/-- C5 (amended): for every tree and every target, the force on the target is
accumulated by `AddForce` over the force terms, and no force term carries the
id of the target: the node that stores the target itself is always skipped. -/
theorem C5_no_force_term_with_own_id (q : BHTree) (target : Body) :
    CalculateForces q target = (forceTerms q target).foldl AddForce target ∧
    ∀ o ∈ forceTerms q target, o.Id ≠ target.Id := by
  refine ⟨CalculateForces_eq_foldl q target, ?_⟩
  induction q generalizing target with
  | leaf bd qb =>
    intro o ho
    simp only [forceTerms] at ho
    split_ifs at ho with h
    · simp at ho
    · simp only [List.mem_singleton] at ho
      subst ho
      exact fun e => h (Or.inr e)
  | node bd qb nw ne sw se ihnw ihne ihsw ihse =>
    intro o ho
    simp only [forceTerms] at ho
    split_ifs at ho with h h1
    · simp at ho
    · simp only [List.mem_singleton] at ho
      subst ho
      exact fun e => h (Or.inr e)
    · simp only [List.mem_append] at ho
      rcases ho with ((ho | ho) | ho) | ho
      · exact ihnw target o ho
      · have := ihne _ o ho
        rwa [CalculateForces_Id] at this
      · have := ihsw _ o ho
        rwa [CalculateForces_Id, CalculateForces_Id] at this
      · have := ihse _ o ho
        rwa [CalculateForces_Id, CalculateForces_Id, CalculateForces_Id] at this

/-! ## C8: the output records of the sequential console mode -/

theorem swapTree_eq :
    addToTree 1000 1000 [swapFirst, swapSecond] =
      node ⟨0, 0, 1000, 1000⟩ (AddBody swapFirst swapSecond)
        (leaf ⟨0, 0, 500, 500⟩ swapFirst) (leaf ⟨500, 0, 500, 500⟩ emptyBody)
        (leaf ⟨500, 500, 500, 500⟩ swapSecond) (leaf ⟨0, 500, 500, 500⟩ emptyBody) := by
  have hA : swapFirst.Mass ≠ 0 := by norm_num [swapFirst, NewBody]
  unfold addToTree
  rw [insertAll_cons, insertAll_cons, insertAll_nil, NewBHTree,
    Insert_leaf_empty _ _ _ _ emptyBody_Mass]
  norm_num
  rw [Insert_leaf_sub _ _ _ _ hA one_lt_maxDepth]
  norm_num [routeInto, subdivide, NewBHTree, BHTree.contains, BHTree.boundary,
    Insert_leaf_empty _ _ _ _ emptyBody_Mass, swapFirst, swapSecond, NewBody]

theorem swap_dist1 : Vector2Distance ⟨450, 600⟩ ⟨300, 400⟩ = 250 :=
  Vector2Distance_of_sq _ _ _ (by norm_num) (by norm_num)

theorem swap_dist2 : Vector2Distance ⟨450, 600⟩ ⟨600, 800⟩ = 250 :=
  Vector2Distance_of_sq _ _ _ (by norm_num) (by norm_num)

theorem swap_dist3 : Vector2Distance ⟨300, 400⟩ ⟨600, 800⟩ = 500 :=
  Vector2Distance_of_sq _ _ _ (by norm_num) (by norm_num)

theorem swap_dist4 : Vector2Distance ⟨600, 800⟩ ⟨300, 400⟩ = 500 :=
  Vector2Distance_of_sq _ _ _ (by norm_num) (by norm_num)

theorem swap_dist5 : Vector2Distance ⟨300, 400⟩ ⟨0, 0⟩ = 500 :=
  Vector2Distance_of_sq _ _ _ (by norm_num) (by norm_num)

theorem swap_step_first :
    ZeroForce (Update (CalculateForces (addToTree 1000 1000 [swapFirst, swapSecond]) swapFirst)) =
      { swapFirst with Position := ⟨2343750003 / 7812500, 781250001 / 1953125⟩,
                       Velocity := ⟨3 / 3125000, 1 / 781250⟩ } := by
  rw [swapTree_eq]
  simp only [CalculateForces, AddBody, swapFirst, swapSecond, NewBody, NewVector2, emptyBody]
  norm_num [swap_dist1, swap_dist3, swap_dist5, ratioBelowTheta, theta, AddForce, Clamp,
    MaxDistance, G, Vector2Subtract, Vector2Divide, Vector2Scale, Vector2Add, NewVector2,
    RadiusCoeff, ZeroForce, Update, dt]

theorem swap_step_second :
    ZeroForce (Update (CalculateForces (addToTree 1000 1000 [swapFirst, swapSecond]) swapSecond)) =
      { swapSecond with Position := ⟨4687499997 / 7812500, 1562499999 / 1953125⟩,
                        Velocity := ⟨-3 / 3125000, -1 / 781250⟩ } := by
  rw [swapTree_eq]
  simp only [CalculateForces, AddBody, swapFirst, swapSecond, NewBody, NewVector2, emptyBody]
  norm_num [swap_dist2, swap_dist4, ratioBelowTheta, theta, AddForce, Clamp,
    MaxDistance, G, Vector2Subtract, Vector2Divide, Vector2Scale, Vector2Add, NewVector2,
    RadiusCoeff, ZeroForce, Update, dt]

theorem seqIterate_one (W H : Int) (bodies : List Body) (data : Option (List (Option Record))) :
    seqIterate W H 1 bodies data = seqProcess W H bodies data := by
  rw [seqIterate]
  cases h : seqProcess W H bodies data with
  | none => rfl
  | some r => cases r; rfl

/-- C8 (the code departs from the claim): for the loaded bodies
`[swapFirst, swapSecond]`, whose ids `1, 0` are distinct and fit as indices,
and one iteration, the record at index 0 has `Id = 0` and holds the initial
position `(600, 800)` of the body with id 0 followed by the position after the
step of the body with id 1 (the body at slice index 0); the record at index 1
mixes the two bodies the other way round. -/
theorem C8_records_follow_slice_index :
    swapFirst.Id = 1 ∧ swapSecond.Id = 0 ∧
    seqIterate 1000 1000 1 [swapFirst, swapSecond] none =
      some ([{ swapFirst with Position := ⟨2343750003 / 7812500, 781250001 / 1953125⟩,
                              Velocity := ⟨3 / 3125000, 1 / 781250⟩ },
             { swapSecond with Position := ⟨4687499997 / 7812500, 1562499999 / 1953125⟩,
                               Velocity := ⟨-3 / 3125000, -1 / 781250⟩ }], none) ∧
    sequential 1000 1000 [swapFirst, swapSecond] 1 =
      some [some ⟨0, [(600, 800), (2343750003 / 7812500, 781250001 / 1953125)]⟩,
            some ⟨1, [(300, 400), (4687499997 / 7812500, 1562499999 / 1953125)]⟩] := by
  have hinit : initData [swapFirst, swapSecond] =
      some [some ⟨0, [(600, 800)]⟩, some ⟨1, [(300, 400)]⟩] := by
    simp [initData, swapFirst, swapSecond, NewBody, List.replicate]
  refine ⟨rfl, rfl, ?_, ?_⟩
  · rw [seqIterate_one]
    unfold seqProcess
    rw [seqLoop, swap_step_first, seqLoop, swap_step_second, seqLoop]
    rfl
  · unfold sequential
    rw [hinit]
    simp only []
    rw [seqIterate_one]
    unfold seqProcess
    rw [seqLoop]
    simp only [List.get?]
    rw [swap_step_first, seqLoop]
    simp only [List.get?, List.set]
    rw [swap_step_second, seqLoop]
    rfl

/-! ## Routing -/

theorem routeInto_cases (bd : Rectangle) (b : Body) (nw ne sw se : BHTree) (x : Body) (d : Nat) :
    routeInto (node bd b nw ne sw se) x d =
      match routeOf nw ne sw x with
      | Quadrant.nw => node bd b (Insert nw x d) ne sw se
      | Quadrant.ne => node bd b nw (Insert ne x d) sw se
      | Quadrant.sw => node bd b nw ne (Insert sw x d) se
      | Quadrant.se => node bd b nw ne sw (Insert se x d) := by
  simp only [routeInto, routeOf]
  split_ifs <;> rfl

theorem routeOf_congr (nw ne sw nw1 ne1 sw1 : BHTree) (x : Body)
    (h1 : nw1.boundary = nw.boundary) (h2 : ne1.boundary = ne.boundary)
    (h3 : sw1.boundary = sw.boundary) : routeOf nw1 ne1 sw1 x = routeOf nw ne sw x := by
  simp only [routeOf, contains_congr nw1 nw x x h1 rfl, contains_congr ne1 ne x x h2 rfl,
    contains_congr sw1 sw x x h3 rfl]

/-! ## C1: centre-of-mass aggregation -/

theorem massSum_pos (L : List Body) (hL : ∀ y ∈ L, 0 < y.Mass) (hne : L ≠ []) :
    0 < massSum L := by
  induction L with
  | nil => exact absurd rfl hne
  | cons a L ih =>
    simp only [massSum, List.map_cons, List.sum_cons]
    have ha : 0 < a.Mass := hL a (List.mem_cons_self a L)
    by_cases hL0 : L = []
    · subst hL0; simpa using ha
    · have := ih (fun y hy => hL y (List.mem_cons_of_mem a hy)) hL0
      simp only [massSum] at this
      linarith

theorem Aggregates_single (b : Body) : Aggregates b [b] := by
  simp [Aggregates, massSum, momentX, momentY]

theorem Aggregates_AddBody (b x : Body) (L : List Body) (h : Aggregates b L)
    (hm : b.Mass + x.Mass ≠ 0) : Aggregates (AddBody b x) (x :: L) := by
  obtain ⟨h1, h2, h3⟩ := h
  refine ⟨?_, ?_, ?_⟩
  · simp only [AddBody, NewBody, massSum, List.map_cons, List.sum_cons]
    simp only [massSum] at h1
    rw [h1]; ring
  · simp only [AddBody, NewBody, NewVector2, momentX, List.map_cons, List.sum_cons]
    simp only [momentX] at h2
    rw [← h2]
    field_simp
    ring
  · simp only [AddBody, NewBody, NewVector2, momentY, List.map_cons, List.sum_cons]
    simp only [momentY] at h3
    rw [← h3]
    field_simp
    ring

theorem Aggregates_perm (b : Body) (L L1 : List Body) (hp : L.Perm L1) (h : Aggregates b L) :
    Aggregates b L1 := by
  obtain ⟨h1, h2, h3⟩ := h
  refine ⟨?_, ?_, ?_⟩
  · rw [h1]; exact (hp.map _).sum_eq
  · rw [h2]; exact (hp.map _).sum_eq
  · rw [h3]; exact (hp.map _).sum_eq

theorem COMInv_perm (q : BHTree) : ∀ (L L1 : List Body) (d : Nat), L.Perm L1 →
    COMInv q L d → COMInv q L1 d := by
  induction q with
  | leaf bd b =>
    intro L L1 d hp h
    simp only [COMInv] at h ⊢
    rcases h with ⟨h1, h2⟩ | h | ⟨h1, h2, h3⟩
    · subst h1
      exact Or.inl ⟨hp.nil_eq.symm, h2⟩
    · subst h
      exact Or.inr (Or.inl (List.perm_singleton.mp hp.symm))
    · refine Or.inr (Or.inr ⟨h1, ?_, Aggregates_perm b L L1 hp h3⟩)
      intro e
      subst e
      exact h2 hp.eq_nil
  | node bd b nw ne sw se ihnw ihne ihsw ihse =>
    intro L L1 d hp h
    simp only [COMInv] at h ⊢
    obtain ⟨h0, h1, h2, h3, h4, h5⟩ := h
    refine ⟨?_, Aggregates_perm b L L1 hp h1, ihnw _ _ _ (hp.filter _) h2,
      ihne _ _ _ (hp.filter _) h3, ihsw _ _ _ (hp.filter _) h4, ihse _ _ _ (hp.filter _) h5⟩
    intro e
    subst e
    exact h0 hp.eq_nil
theorem routeOf_Insert_nw (nw ne sw : BHTree) (x : Body) (d : Nat) :
    routeOf (Insert nw x d) ne sw = routeOf nw ne sw :=
  funext fun y => routeOf_congr _ _ _ _ _ _ y (boundary_Insert nw x d) rfl rfl

theorem routeOf_Insert_ne (nw ne sw : BHTree) (x : Body) (d : Nat) :
    routeOf nw (Insert ne x d) sw = routeOf nw ne sw :=
  funext fun y => routeOf_congr _ _ _ _ _ _ y rfl (boundary_Insert ne x d) rfl

theorem routeOf_Insert_sw (nw ne sw : BHTree) (x : Body) (d : Nat) :
    routeOf nw ne (Insert sw x d) = routeOf nw ne sw :=
  funext fun y => routeOf_congr _ _ _ _ _ _ y rfl rfl (boundary_Insert sw x d)

/-- One routing step keeps the invariant of the four children. -/
theorem COMInv_routeInto (bd : Rectangle) (a : Body) (nw ne sw se : BHTree) (y : Body)
    (L : List Body) (d : Nat) (hL : ∀ z ∈ L, 0 < z.Mass)
    (ih : ∀ t, t = nw ∨ t = ne ∨ t = sw ∨ t = se → ∀ M : List Body, (∀ z ∈ M, 0 < z.Mass) →
      COMInv t M (d + 1) → COMInv (Insert t y (d + 1)) (y :: M) (d + 1))
    (hnw : COMInv nw (L.filter fun x => decide (routeOf nw ne sw x = Quadrant.nw)) (d + 1))
    (hne : COMInv ne (L.filter fun x => decide (routeOf nw ne sw x = Quadrant.ne)) (d + 1))
    (hsw : COMInv sw (L.filter fun x => decide (routeOf nw ne sw x = Quadrant.sw)) (d + 1))
    (hse : COMInv se (L.filter fun x => decide (routeOf nw ne sw x = Quadrant.se)) (d + 1)) :
    ∃ nw1 ne1 sw1 se1, routeInto (node bd a nw ne sw se) y (d + 1) = node bd a nw1 ne1 sw1 se1 ∧
      COMInv nw1 ((y :: L).filter fun x => decide (routeOf nw1 ne1 sw1 x = Quadrant.nw)) (d + 1) ∧
      COMInv ne1 ((y :: L).filter fun x => decide (routeOf nw1 ne1 sw1 x = Quadrant.ne)) (d + 1) ∧
      COMInv sw1 ((y :: L).filter fun x => decide (routeOf nw1 ne1 sw1 x = Quadrant.sw)) (d + 1) ∧
      COMInv se1 ((y :: L).filter fun x => decide (routeOf nw1 ne1 sw1 x = Quadrant.se)) (d + 1) := by
  have hsub : ∀ p : Body → Bool, ∀ z ∈ L.filter p, 0 < z.Mass :=
    fun p z hz => hL z (List.mem_of_mem_filter hz)
  rw [routeInto_cases]
  cases h : routeOf nw ne sw y
  · refine ⟨_, _, _, _, rfl, ?_⟩
    simp only [routeOf_Insert_nw, List.filter_cons, h, decide_True, decide_False, if_true,
      if_false, reduceCtorEq]
    exact ⟨ih nw (Or.inl rfl) _ (hsub _) hnw, hne, hsw, hse⟩
  · refine ⟨_, _, _, _, rfl, ?_⟩
    simp only [routeOf_Insert_ne, List.filter_cons, h, decide_True, decide_False, if_true,
      if_false, reduceCtorEq]
    exact ⟨hnw, ih ne (Or.inr (Or.inl rfl)) _ (hsub _) hne, hsw, hse⟩
  · refine ⟨_, _, _, _, rfl, ?_⟩
    simp only [routeOf_Insert_sw, List.filter_cons, h, decide_True, decide_False, if_true,
      if_false, reduceCtorEq]
    exact ⟨hnw, hne, ih sw (Or.inr (Or.inr (Or.inl rfl))) _ (hsub _) hsw, hse⟩
  · refine ⟨_, _, _, _, rfl, ?_⟩
    simp only [List.filter_cons, h, decide_True, decide_False, if_true,
      if_false, reduceCtorEq]
    exact ⟨hnw, hne, hsw, ih se (Or.inr (Or.inr (Or.inr rfl))) _ (hsub _) hse⟩

theorem COMInv_empty_kids (bd : Rectangle) (d : Nat) :
    COMInv (subdivide bd).1 [] d ∧ COMInv (subdivide bd).2.1 [] d ∧
    COMInv (subdivide bd).2.2.1 [] d ∧ COMInv (subdivide bd).2.2.2 [] d := by
  simp [subdivide, NewBHTree, COMInv, emptyBody]

/-- `Insert` keeps the centre-of-mass invariant. -/
theorem COMInv_Insert : ∀ (q : BHTree) (x : Body) (d : Nat), 0 < x.Mass →
    ∀ L : List Body, (∀ z ∈ L, 0 < z.Mass) → COMInv q L d → COMInv (Insert q x d) (x :: L) d := by
  apply Insert_induction
  · intro bd b x d ih hx L hL hinv
    simp only [COMInv] at hinv
    have hlimit : ∀ M : List Body, M ≠ [] → (∀ z ∈ M, 0 < z.Mass) → Aggregates b M →
        ¬ d + 1 < maxDepth → COMInv (Insert (leaf bd b) x d) (x :: M) d := by
      intro M hM hMpos hag hd
      have hb : 0 < b.Mass := by rw [hag.1]; exact massSum_pos M hMpos hM
      rw [Insert_leaf_limit _ _ _ _ hb.ne' hd]
      simp only [COMInv]
      exact Or.inr (Or.inr ⟨hd, by simp, Aggregates_AddBody b x M hag (by linarith)⟩)
    rcases hinv with ⟨h1, h2⟩ | h | ⟨h1, h2, h3⟩
    · subst h1
      rw [Insert_leaf_empty _ _ _ _ h2]
      simp [COMInv]
    · subst h
      have hb : 0 < b.Mass := hL b (List.mem_singleton_self b)
      by_cases hd : d + 1 < maxDepth
      · rw [Insert_leaf_sub _ _ _ _ hb.ne' hd]
        obtain ⟨e1, e2, e3, e4⟩ := COMInv_empty_kids bd (d + 1)
        obtain ⟨nw1, ne1, sw1, se1, hr1, k1, k2, k3, k4⟩ :=
          COMInv_routeInto bd (AddBody b x) _ _ _ _ x [] d (by simp)
            (fun t _ M hM hinv => ih hd t x hx M hM hinv) e1 e2 e3 e4
        rw [hr1]
        obtain ⟨nw2, ne2, sw2, se2, hr2, m1, m2, m3, m4⟩ :=
          COMInv_routeInto bd (AddBody b x) nw1 ne1 sw1 se1 b [x] d (by simpa using hx)
            (fun t _ M hM hinv => ih hd t b hb M hM hinv) k1 k2 k3 k4
        rw [hr2]
        have hp : List.Perm [b, x] [x, b] := List.Perm.swap x b []
        apply COMInv_perm _ _ _ _ hp
        simp only [COMInv]
        refine ⟨by simp, ?_, m1, m2, m3, m4⟩
        exact Aggregates_perm _ _ _ hp.symm
          (Aggregates_AddBody b x [b] (Aggregates_single b) (by linarith))
      · exact hlimit [b] (by simp) hL (Aggregates_single b) hd
    · exact hlimit L h2 hL h3 h1
  · intro bd b nw ne sw se x d ihnw ihne ihsw ihse hx L hL hinv
    simp only [COMInv] at hinv
    obtain ⟨h0, hag, k1, k2, k3, k4⟩ := hinv
    have hb : 0 < b.Mass := by rw [hag.1]; exact massSum_pos L hL h0
    rw [Insert_node _ _ _ _ _ _ _ _ hb.ne']
    obtain ⟨nw1, ne1, sw1, se1, hr1, m1, m2, m3, m4⟩ :=
      COMInv_routeInto bd (AddBody b x) nw ne sw se x L d hL
        (by
          rintro t (rfl | rfl | rfl | rfl) M hM hinv
          · exact ihnw hx M hM hinv
          · exact ihne hx M hM hinv
          · exact ihsw hx M hM hinv
          · exact ihse hx M hM hinv) k1 k2 k3 k4
    rw [hr1]
    simp only [COMInv]
    exact ⟨by simp, Aggregates_AddBody b x L hag (by linarith), m1, m2, m3, m4⟩
theorem COMInv_insertAll (bs : List Body) : ∀ (t : BHTree) (L : List Body),
    (∀ z ∈ bs, 0 < z.Mass) → (∀ z ∈ L, 0 < z.Mass) → COMInv t L 0 →
    COMInv (insertAll t bs) (bs.reverse ++ L) 0 := by
  induction bs with
  | nil => intro t L _ _ h; simpa [insertAll_nil] using h
  | cons b bs ih =>
    intro t L hbs hL h
    rw [insertAll_cons]
    have hb : 0 < b.Mass := hbs b (List.mem_cons_self b bs)
    have := ih (Insert t b 0) (b :: L) (fun z hz => hbs z (List.mem_cons_of_mem b hz))
      (by
        intro z hz
        rcases List.mem_cons.mp hz with rfl | hz
        · exact hb
        · exact hL z hz)
      (COMInv_Insert t b 0 hb L hL h)
    simpa using this

theorem COMAggregated_of_COMInv (q : BHTree) : ∀ (L : List Body) (d : Nat),
    COMInv q L d → COMAggregated q L := by
  induction q with
  | leaf bd b => intro L d _; simp [COMAggregated]
  | node bd b nw ne sw se ihnw ihne ihsw ihse =>
    intro L d h
    simp only [COMInv] at h
    simp only [COMAggregated]
    exact ⟨h.2.1, ihnw _ _ h.2.2.1, ihne _ _ h.2.2.2.1, ihsw _ _ h.2.2.2.2.1,
      ihse _ _ h.2.2.2.2.2⟩

theorem Aggregates_body_of_COMInv (q : BHTree) (L : List Body) (d : Nat) (hne : L ≠ [])
    (h : COMInv q L d) : Aggregates q.body L := by
  cases q with
  | leaf bd b =>
    simp only [COMInv] at h
    rcases h with ⟨h1, _⟩ | h | ⟨_, _, h3⟩
    · exact absurd h1 hne
    · subst h; exact Aggregates_single b
    · exact h3
  | node bd b nw ne sw se =>
    simp only [COMInv] at h
    exact h.2.1

/-- C1: after inserting a non-empty list of bodies of positive mass one by one
with `Insert(body, 0)` into an empty tree, every divided node carries the sum
of the masses of the bodies routed into its subtree and `Mass * Position` is
the sum of `m_i * p_i` over them; the root carries the total mass and the
mass-weighted mean position of all the bodies. -/
theorem C1_com_aggregation (r : Rectangle) (bodies : List Body) (hne : bodies ≠ [])
    (hpos : ∀ b ∈ bodies, 0 < b.Mass) :
    COMAggregated (insertAll (NewBHTree r) bodies) bodies ∧
    (insertAll (NewBHTree r) bodies).body.Mass = massSum bodies ∧
    (insertAll (NewBHTree r) bodies).body.Position.X = momentX bodies / massSum bodies ∧
    (insertAll (NewBHTree r) bodies).body.Position.Y = momentY bodies / massSum bodies := by
  have h0 : COMInv (NewBHTree r) [] 0 := by simp [NewBHTree, COMInv, emptyBody]
  have h1 := COMInv_insertAll bodies (NewBHTree r) [] hpos (by simp) h0
  rw [List.append_nil] at h1
  have h2 : COMInv (insertAll (NewBHTree r) bodies) bodies 0 :=
    COMInv_perm _ _ _ _ (List.reverse_perm bodies) h1
  obtain ⟨a1, a2, a3⟩ := Aggregates_body_of_COMInv _ _ _ hne h2
  have hm : 0 < massSum bodies := massSum_pos bodies hpos hne
  refine ⟨COMAggregated_of_COMInv _ _ _ h2, a1, ?_, ?_⟩
  · rw [← a2, a1]; field_simp
  · rw [← a3, a1]; field_simp

/-- Instance of C1 for two bodies in the window `100 x 100`. -/
theorem C1_com_aggregation_witness :
    [bodyNW, bodyNE] ≠ [] ∧ (∀ b ∈ [bodyNW, bodyNE], 0 < b.Mass) ∧
    (COMAggregated (insertAll (NewBHTree ⟨0, 0, 100, 100⟩) [bodyNW, bodyNE]) [bodyNW, bodyNE] ∧
    (insertAll (NewBHTree ⟨0, 0, 100, 100⟩) [bodyNW, bodyNE]).body.Mass =
      massSum [bodyNW, bodyNE] ∧
    (insertAll (NewBHTree ⟨0, 0, 100, 100⟩) [bodyNW, bodyNE]).body.Position.X =
      momentX [bodyNW, bodyNE] / massSum [bodyNW, bodyNE] ∧
    (insertAll (NewBHTree ⟨0, 0, 100, 100⟩) [bodyNW, bodyNE]).body.Position.Y =
      momentY [bodyNW, bodyNE] / massSum [bodyNW, bodyNE]) :=
  ⟨by simp, by simp [bodyNW, bodyNE, NewBody],
    C1_com_aggregation ⟨0, 0, 100, 100⟩ [bodyNW, bodyNE] (by simp)
      (by simp [bodyNW, bodyNE, NewBody])⟩

/-! ## C2: containment -/

theorem contains_iff (q : BHTree) (b : Body) :
    q.contains b = true ↔ inRect q.boundary b.Position := by
  simp only [BHTree.contains, inRect, Bool.and_eq_true, decide_eq_true_eq, and_assoc]

theorem inRect_AddBody (r : Rectangle) (b x : Body) (hb : 0 < b.Mass) (hx : 0 < x.Mass)
    (h1 : inRect r b.Position) (h2 : inRect r x.Position) :
    0 < (AddBody b x).Mass ∧ inRect r (AddBody b x).Position := by
  have hm : 0 < b.Mass + x.Mass := by linarith
  obtain ⟨a1, a2, a3, a4⟩ := h1
  obtain ⟨c1, c2, c3, c4⟩ := h2
  refine ⟨hm, ?_, ?_, ?_, ?_⟩
  · simp only [AddBody, NewBody, NewVector2, ge_iff_le]
    rw [le_div_iff₀ hm]
    nlinarith [mul_le_mul_of_nonneg_right a1 hb.le, mul_le_mul_of_nonneg_right c1 hx.le]
  · simp only [AddBody, NewBody, NewVector2]
    rw [div_le_iff₀ hm]
    nlinarith [mul_le_mul_of_nonneg_right a2 hb.le, mul_le_mul_of_nonneg_right c2 hx.le]
  · simp only [AddBody, NewBody, NewVector2, ge_iff_le]
    rw [le_div_iff₀ hm]
    nlinarith [mul_le_mul_of_nonneg_right a3 hb.le, mul_le_mul_of_nonneg_right c3 hx.le]
  · simp only [AddBody, NewBody, NewVector2]
    rw [div_le_iff₀ hm]
    nlinarith [mul_le_mul_of_nonneg_right a4 hb.le, mul_le_mul_of_nonneg_right c4 hx.le]

/-- A point of the parent rectangle that the first three children do not
contain lies in the rectangle of the fourth child. -/
theorem inRect_fallthrough (bd : Rectangle) (p : Vector2) (h : inRect bd p)
    (h1 : ¬ inRect ⟨bd.X, bd.Y, bd.Width / 2, bd.Height / 2⟩ p)
    (h2 : ¬ inRect ⟨bd.X + bd.Width / 2, bd.Y, bd.Width / 2, bd.Height / 2⟩ p)
    (h3 : ¬ inRect ⟨bd.X + bd.Width / 2, bd.Y + bd.Height / 2, bd.Width / 2, bd.Height / 2⟩ p) :
    inRect ⟨bd.X, bd.Y + bd.Height / 2, bd.Width / 2, bd.Height / 2⟩ p := by
  simp only [inRect, ge_iff_le, not_and, not_le] at *
  obtain ⟨a1, a2, a3, a4⟩ := h
  by_cases hx : p.X ≤ bd.X + bd.Width / 2
  · have hy := h1 a1 hx a3
    exact ⟨a1, hx, hy.le, by linarith⟩
  · exfalso
    have hx1 : bd.X + bd.Width / 2 ≤ p.X := (not_le.mp hx).le
    have hx2 : p.X ≤ bd.X + bd.Width / 2 + bd.Width / 2 := by linarith
    have hy := h2 hx1 hx2 a3
    have := h3 hx1 hx2 hy.le
    linarith

/-- One routing step keeps the geometric invariant of a divided node. -/
theorem GeoInv_routeInto (bd : Rectangle) (a : Body) (nw ne sw se : BHTree) (y : Body) (d : Nat)
    (hin : inRect bd y.Position)
    (ih : ∀ t, t = nw ∨ t = ne ∨ t = sw ∨ t = se → inRect t.boundary y.Position → GeoInv t →
      GeoInv (Insert t y d))
    (h : GeoInv (node bd a nw ne sw se)) :
    GeoInv (routeInto (node bd a nw ne sw se) y d) := by
  simp only [GeoInv] at h
  obtain ⟨b1, b2, b3, b4, g1, g2, g3, g4⟩ := h
  simp only [routeInto]
  split_ifs with c1 c2 c3
  · simp only [GeoInv, boundary_Insert]
    exact ⟨b1, b2, b3, b4, ih nw (Or.inl rfl) ((contains_iff _ _).mp c1) g1, g2, g3, g4⟩
  · simp only [GeoInv, boundary_Insert]
    exact ⟨b1, b2, b3, b4, g1, ih ne (Or.inr (Or.inl rfl)) ((contains_iff _ _).mp c2) g2, g3, g4⟩
  · simp only [GeoInv, boundary_Insert]
    exact ⟨b1, b2, b3, b4, g1, g2,
      ih sw (Or.inr (Or.inr (Or.inl rfl))) ((contains_iff _ _).mp c3) g3, g4⟩
  · simp only [GeoInv, boundary_Insert]
    refine ⟨b1, b2, b3, b4, g1, g2, g3, ih se (Or.inr (Or.inr (Or.inr rfl))) ?_ g4⟩
    rw [contains_iff] at c1 c2 c3
    rw [b1] at c1
    rw [b2] at c2
    rw [b3] at c3
    rw [b4]
    exact inRect_fallthrough bd y.Position hin c1 c2 c3

theorem GeoInv_subdivide (bd : Rectangle) (a : Body) :
    GeoInv (node bd a (subdivide bd).1 (subdivide bd).2.1 (subdivide bd).2.2.1
      (subdivide bd).2.2.2) := by
  simp [GeoInv, subdivide, NewBHTree, BHTree.boundary, emptyBody]

/-- `Insert` keeps the geometric invariant for a body inside the boundary. -/
theorem GeoInv_Insert : ∀ (q : BHTree) (x : Body) (d : Nat), 0 < x.Mass →
    inRect q.boundary x.Position → GeoInv q → GeoInv (Insert q x d) := by
  apply Insert_induction
  · intro bd b x d ih hx hin hinv
    simp only [GeoInv] at hinv
    by_cases hb0 : b.Mass = 0
    · rw [Insert_leaf_empty _ _ _ _ hb0]
      simp only [GeoInv]
      exact Or.inr ⟨hx, hin⟩
    · rcases hinv with h | ⟨hb, hbin⟩
      · exact absurd h hb0
      · by_cases hd : d + 1 < maxDepth
        · rw [Insert_leaf_sub _ _ _ _ hb0 hd]
          have s1 := GeoInv_routeInto bd (AddBody b x) _ _ _ _ x (d + 1) hin
            (fun t _ ht hg => ih hd t x hx ht hg) (GeoInv_subdivide bd (AddBody b x))
          rw [routeInto_cases] at s1 ⊢
          cases hr : routeOf (subdivide bd).1 (subdivide bd).2.1 (subdivide bd).2.2.1 x <;>
            simp only [hr] at s1 ⊢ <;>
            exact GeoInv_routeInto bd (AddBody b x) _ _ _ _ b (d + 1) hbin
              (fun t _ ht hg => ih hd t b hb ht hg) s1
        · rw [Insert_leaf_limit _ _ _ _ hb0 hd]
          simp only [GeoInv]
          exact Or.inr (inRect_AddBody bd b x hb hx hbin hin)
  · intro bd b nw ne sw se x d ihnw ihne ihsw ihse hx hin hinv
    by_cases hb0 : b.Mass = 0
    · rw [Insert_node_zero _ _ _ _ _ _ _ _ hb0]
      simpa only [GeoInv] using hinv
    · rw [Insert_node _ _ _ _ _ _ _ _ hb0]
      apply GeoInv_routeInto bd (AddBody b x) nw ne sw se x (d + 1) hin
      · rintro t (rfl | rfl | rfl | rfl) ht hg
        · exact ihnw hx ht hg
        · exact ihne hx ht hg
        · exact ihsw hx ht hg
        · exact ihse hx ht hg
      · simpa only [GeoInv] using hinv
/-- A point of a quadrant lies in the parent rectangle. -/
theorem inRect_of_quadrant (bd c : Rectangle) (p : Vector2) (hp : inRect c p)
    (hc : c = ⟨bd.X, bd.Y, bd.Width / 2, bd.Height / 2⟩ ∨
      c = ⟨bd.X + bd.Width / 2, bd.Y, bd.Width / 2, bd.Height / 2⟩ ∨
      c = ⟨bd.X + bd.Width / 2, bd.Y + bd.Height / 2, bd.Width / 2, bd.Height / 2⟩ ∨
      c = ⟨bd.X, bd.Y + bd.Height / 2, bd.Width / 2, bd.Height / 2⟩) :
    inRect bd p := by
  rcases hc with rfl | rfl | rfl | rfl <;>
    · simp only [inRect, ge_iff_le] at hp ⊢
      obtain ⟨a1, a2, a3, a4⟩ := hp
      refine ⟨?_, ?_, ?_, ?_⟩ <;> linarith

theorem Contained_of_GeoInv (q : BHTree) : ∀ anc : List Rectangle, GeoInv q →
    (∀ p, inRect q.boundary p → ∀ r ∈ anc, inRect r p) → Contained anc q := by
  induction q with
  | leaf bd b =>
    intro anc hg hanc
    simp only [Contained]
    intro hb r hr
    simp only [GeoInv] at hg
    rcases hg with h | ⟨_, hin⟩
    · exact absurd h hb
    · rw [contains_iff]
      rcases List.mem_cons.mp hr with rfl | hr
      · exact hin
      · exact hanc b.Position hin r hr
  | node bd b nw ne sw se ihnw ihne ihsw ihse =>
    intro anc hg hanc
    simp only [GeoInv] at hg
    obtain ⟨b1, b2, b3, b4, g1, g2, g3, g4⟩ := hg
    have key : ∀ c : BHTree,
        (c.boundary = ⟨bd.X, bd.Y, bd.Width / 2, bd.Height / 2⟩ ∨
          c.boundary = ⟨bd.X + bd.Width / 2, bd.Y, bd.Width / 2, bd.Height / 2⟩ ∨
          c.boundary =
            ⟨bd.X + bd.Width / 2, bd.Y + bd.Height / 2, bd.Width / 2, bd.Height / 2⟩ ∨
          c.boundary = ⟨bd.X, bd.Y + bd.Height / 2, bd.Width / 2, bd.Height / 2⟩) →
        ∀ p, inRect c.boundary p → ∀ r ∈ bd :: anc, inRect r p := by
      intro c hc p hp r hr
      have hbd : inRect bd p := inRect_of_quadrant bd c.boundary p hp hc
      rcases List.mem_cons.mp hr with rfl | hr
      · exact hbd
      · exact hanc p hbd r hr
    simp only [Contained]
    exact ⟨ihnw _ g1 (key nw (Or.inl b1)), ihne _ g2 (key ne (Or.inr (Or.inl b2))),
      ihsw _ g3 (key sw (Or.inr (Or.inr (Or.inl b3)))),
      ihse _ g4 (key se (Or.inr (Or.inr (Or.inr b4))))⟩

theorem boundary_insertAll (bs : List Body) : ∀ t : BHTree,
    (insertAll t bs).boundary = t.boundary := by
  induction bs with
  | nil => intro t; rfl
  | cons b bs ih => intro t; rw [insertAll_cons, ih, boundary_Insert]

theorem GeoInv_insertAll (bs : List Body) : ∀ t : BHTree, (∀ b ∈ bs, 0 < b.Mass) →
    (∀ b ∈ bs, inRect t.boundary b.Position) → GeoInv t → GeoInv (insertAll t bs) := by
  induction bs with
  | nil => intro t _ _ h; exact h
  | cons b bs ih =>
    intro t hpos hin h
    rw [insertAll_cons]
    apply ih
    · exact fun z hz => hpos z (List.mem_cons_of_mem b hz)
    · intro z hz
      rw [boundary_Insert]
      exact hin z (List.mem_cons_of_mem b hz)
    · exact GeoInv_Insert t b 0 (hpos b (List.mem_cons_self b bs))
        (hin b (List.mem_cons_self b bs)) h

/-- C2: for every root rectangle and every list of bodies of positive mass
whose positions the root rectangle contains (closed intervals), after inserting
them with `Insert(body, 0)` into an empty tree every undivided node that holds
a body has the position of that body inside its own boundary and inside the
boundary of every ancestor.  Positive width and height are not needed. -/
theorem C2_containment (r : Rectangle) (bodies : List Body)
    (hpos : ∀ b ∈ bodies, 0 < b.Mass)
    (hin : ∀ b ∈ bodies, (NewBHTree r).contains b = true) :
    Contained [] (insertAll (NewBHTree r) bodies) := by
  apply Contained_of_GeoInv
  · apply GeoInv_insertAll bodies (NewBHTree r) hpos
    · intro b hb
      exact (contains_iff _ _).mp (hin b hb)
    · simp [NewBHTree, GeoInv, emptyBody]
  · intro p _ r hr
    simp at hr

/-- Instance of C2 for two bodies in the window `100 x 100`. -/
theorem C2_containment_witness :
    (∀ b ∈ [bodyNW, bodyNE], 0 < b.Mass) ∧
    (∀ b ∈ [bodyNW, bodyNE], (NewBHTree ⟨0, 0, 100, 100⟩).contains b = true) ∧
    Contained [] (insertAll (NewBHTree ⟨0, 0, 100, 100⟩) [bodyNW, bodyNE]) :=
  ⟨by simp [bodyNW, bodyNE, NewBody],
    by norm_num [bodyNW, bodyNE, NewBody, NewBHTree, BHTree.contains, BHTree.boundary],
    C2_containment ⟨0, 0, 100, 100⟩ [bodyNW, bodyNE] (by simp [bodyNW, bodyNE, NewBody])
      (by norm_num [bodyNW, bodyNE, NewBody, NewBHTree, BHTree.contains, BHTree.boundary])⟩

/-! ## C9: the depth limit -/

theorem InsertDepth_leaf_empty (bd : Rectangle) (b x : Body) (d : Nat) (h : b.Mass = 0) :
    InsertDepth (leaf bd b) x d = d + 1 := by
  rw [InsertDepth]; simp [h]

theorem InsertDepth_leaf_limit (bd : Rectangle) (b x : Body) (d : Nat) (h : b.Mass ≠ 0)
    (hd : ¬ d + 1 < maxDepth) : InsertDepth (leaf bd b) x d = d + 1 := by
  rw [InsertDepth]; simp [h, hd]

theorem InsertDepth_node_zero (bd : Rectangle) (b : Body) (nw ne sw se : BHTree) (x : Body)
    (d : Nat) (h : b.Mass = 0) : InsertDepth (node bd b nw ne sw se) x d = d + 1 := by
  rw [InsertDepth]; simp [h]

theorem InsertDepth_node (bd : Rectangle) (b : Body) (nw ne sw se : BHTree) (x : Body) (d : Nat)
    (h : b.Mass ≠ 0) :
    InsertDepth (node bd b nw ne sw se) x d =
      max (d + 1) (routeDepth (node bd (AddBody b x) nw ne sw se) x (d + 1)) := by
  rw [InsertDepth]; simp only [h, if_false, routeDepth]
  split_ifs <;> rfl

theorem InsertDepth_leaf_sub (bd : Rectangle) (b x : Body) (d : Nat) (h : b.Mass ≠ 0)
    (hd : d + 1 < maxDepth) :
    InsertDepth (leaf bd b) x d =
      max (d + 1) (max
        (routeDepth (node bd (AddBody b x) (subdivide bd).1 (subdivide bd).2.1
          (subdivide bd).2.2.1 (subdivide bd).2.2.2) x (d + 1))
        (routeDepth (routeInto (node bd (AddBody b x) (subdivide bd).1 (subdivide bd).2.1
          (subdivide bd).2.2.1 (subdivide bd).2.2.2) x (d + 1)) b (d + 1))) := by
  rw [InsertDepth]; simp only [h, hd, if_false, dite_true]
  congr 2
  by_cases c1 : (subdivide bd).1.contains x = true
  · simp [routeDepth, routeInto, c1]
  · by_cases c2 : (subdivide bd).2.1.contains x = true
    · simp [routeDepth, routeInto, c1, c2]
    · by_cases c3 : (subdivide bd).2.2.1.contains x = true
      · simp [routeDepth, routeInto, c1, c2, c3]
      · simp [routeDepth, routeInto, c1, c2, c3]
/-- One routing step stays within the depth limit and keeps the depth
discipline of the four children. -/
theorem Depth_routeInto (bd : Rectangle) (a : Body) (nw ne sw se : BHTree) (y : Body) (e : Nat)
    (ih : ∀ t, t = nw ∨ t = ne ∨ t = sw ∨ t = se → DepthBounded e t →
      InsertDepth t y e ≤ maxDepth ∧ DepthBounded e (Insert t y e))
    (h1 : DepthBounded e nw) (h2 : DepthBounded e ne) (h3 : DepthBounded e sw)
    (h4 : DepthBounded e se) :
    routeDepth (node bd a nw ne sw se) y e ≤ maxDepth ∧
    ∃ nw1 ne1 sw1 se1, routeInto (node bd a nw ne sw se) y e = node bd a nw1 ne1 sw1 se1 ∧
      DepthBounded e nw1 ∧ DepthBounded e ne1 ∧ DepthBounded e sw1 ∧ DepthBounded e se1 := by
  simp only [routeDepth, routeInto]
  split_ifs
  · exact ⟨(ih nw (Or.inl rfl) h1).1, _, _, _, _, rfl, (ih nw (Or.inl rfl) h1).2, h2, h3, h4⟩
  · exact ⟨(ih ne (Or.inr (Or.inl rfl)) h2).1, _, _, _, _, rfl, h1,
      (ih ne (Or.inr (Or.inl rfl)) h2).2, h3, h4⟩
  · exact ⟨(ih sw (Or.inr (Or.inr (Or.inl rfl))) h3).1, _, _, _, _, rfl, h1, h2,
      (ih sw (Or.inr (Or.inr (Or.inl rfl))) h3).2, h4⟩
  · exact ⟨(ih se (Or.inr (Or.inr (Or.inr rfl))) h4).1, _, _, _, _, rfl, h1, h2, h3,
      (ih se (Or.inr (Or.inr (Or.inr rfl))) h4).2⟩

/-- `Insert` on a tree that respects the depth discipline never takes its
counter beyond `maxDepth`, and its result respects the discipline. -/
theorem Depth_Insert : ∀ (q : BHTree) (x : Body) (d : Nat), DepthBounded d q →
    InsertDepth q x d ≤ maxDepth ∧ DepthBounded d (Insert q x d) := by
  apply Insert_induction
  · intro bd b x d ih hq
    simp only [DepthBounded] at hq
    by_cases hb0 : b.Mass = 0
    · rw [InsertDepth_leaf_empty _ _ _ _ hb0, Insert_leaf_empty _ _ _ _ hb0]
      exact ⟨hq, by simpa only [DepthBounded] using hq⟩
    · by_cases hd : d + 1 < maxDepth
      · rw [InsertDepth_leaf_sub _ _ _ _ hb0 hd, Insert_leaf_sub _ _ _ _ hb0 hd]
        have hk : ∀ t, DepthBounded (d + 1) (NewBHTree t) := by
          intro t
          simp only [NewBHTree, DepthBounded]
          omega
        obtain ⟨r1, nw1, ne1, sw1, se1, e1, k1, k2, k3, k4⟩ :=
          Depth_routeInto bd (AddBody b x) (subdivide bd).1 (subdivide bd).2.1
            (subdivide bd).2.2.1 (subdivide bd).2.2.2 x (d + 1) (fun t _ ht => ih hd t x ht)
            (hk _) (hk _) (hk _) (hk _)
        rw [e1]
        obtain ⟨r2, nw2, ne2, sw2, se2, e2, m1, m2, m3, m4⟩ :=
          Depth_routeInto bd (AddBody b x) nw1 ne1 sw1 se1 b (d + 1)
            (fun t _ ht => ih hd t b ht) k1 k2 k3 k4
        rw [e2]
        refine ⟨?_, ?_⟩
        · exact max_le hd.le (max_le r1 r2)
        · simp only [DepthBounded]
          exact ⟨hd, m1, m2, m3, m4⟩
      · rw [InsertDepth_leaf_limit _ _ _ _ hb0 hd, Insert_leaf_limit _ _ _ _ hb0 hd]
        exact ⟨hq, by simpa only [DepthBounded] using hq⟩
  · intro bd b nw ne sw se x d ihnw ihne ihsw ihse hq
    simp only [DepthBounded] at hq
    obtain ⟨hd, k1, k2, k3, k4⟩ := hq
    by_cases hb0 : b.Mass = 0
    · rw [InsertDepth_node_zero _ _ _ _ _ _ _ _ hb0, Insert_node_zero _ _ _ _ _ _ _ _ hb0]
      refine ⟨hd.le, ?_⟩
      simp only [DepthBounded]
      exact ⟨hd, k1, k2, k3, k4⟩
    · rw [InsertDepth_node _ _ _ _ _ _ _ _ hb0, Insert_node _ _ _ _ _ _ _ _ hb0]
      obtain ⟨r1, nw1, ne1, sw1, se1, e1, m1, m2, m3, m4⟩ :=
        Depth_routeInto bd (AddBody b x) nw ne sw se x (d + 1)
          (by
            rintro t (rfl | rfl | rfl | rfl) ht
            · exact ihnw ht
            · exact ihne ht
            · exact ihsw ht
            · exact ihse ht) k1 k2 k3 k4
      rw [e1]
      refine ⟨max_le hd.le r1, ?_⟩
      simp only [DepthBounded]
      exact ⟨hd, m1, m2, m3, m4⟩

theorem DepthBounded_insertAll (bs : List Body) : ∀ t : BHTree, DepthBounded 0 t →
    DepthBounded 0 (insertAll t bs) := by
  induction bs with
  | nil => intro t h; exact h
  | cons b bs ih =>
    intro t h
    rw [insertAll_cons]
    exact ih _ (Depth_Insert t b 0 h).2
theorem routeOf_pos_congr (nw ne sw : BHTree) (x y : Body) (hp : x.Position = y.Position) :
    routeOf nw ne sw x = routeOf nw ne sw y := by
  simp only [routeOf, contains_congr nw nw x y rfl hp, contains_congr ne ne x y rfl hp,
    contains_congr sw sw x y rfl hp]

theorem locate_cases (bd : Rectangle) (b : Body) (nw ne sw se : BHTree) (x : Body) :
    locate (node bd b nw ne sw se) x =
      match routeOf nw ne sw x with
      | Quadrant.nw => locate nw x
      | Quadrant.ne => locate ne x
      | Quadrant.sw => locate sw x
      | Quadrant.se => locate se x := by
  simp only [locate, routeOf]
  split_ifs <;> rfl

theorem locate_congr (q : BHTree) (x y : Body) (hp : x.Position = y.Position) :
    locate q x = locate q y := by
  induction q with
  | leaf bd b => rfl
  | node bd b nw ne sw se ihnw ihne ihsw ihse =>
    rw [locate_cases, locate_cases, routeOf_pos_congr nw ne sw x y hp, ihnw, ihne, ihsw, ihse]

/-- One routing step keeps `PosInv` of a divided node. -/
theorem PosInv_routeInto (bd : Rectangle) (a : Body) (nw ne sw se : BHTree) (y : Body) (e : Nat)
    (ih : ∀ t, t = nw ∨ t = ne ∨ t = sw ∨ t = se → PosInv t → PosInv (Insert t y e))
    (h : PosInv (node bd a nw ne sw se)) : PosInv (routeInto (node bd a nw ne sw se) y e) := by
  simp only [PosInv] at h
  obtain ⟨h0, h1, h2, h3, h4⟩ := h
  simp only [routeInto]
  split_ifs
  · simp only [PosInv]; exact ⟨h0, ih nw (Or.inl rfl) h1, h2, h3, h4⟩
  · simp only [PosInv]; exact ⟨h0, h1, ih ne (Or.inr (Or.inl rfl)) h2, h3, h4⟩
  · simp only [PosInv]; exact ⟨h0, h1, h2, ih sw (Or.inr (Or.inr (Or.inl rfl))) h3, h4⟩
  · simp only [PosInv]; exact ⟨h0, h1, h2, h3, ih se (Or.inr (Or.inr (Or.inr rfl))) h4⟩

theorem AddBody_Mass (b x : Body) : (AddBody b x).Mass = b.Mass + x.Mass := rfl

theorem PosInv_Insert : ∀ (q : BHTree) (x : Body) (d : Nat), 0 < x.Mass → PosInv q →
    PosInv (Insert q x d) := by
  apply Insert_induction
  · intro bd b x d ih hx hq
    simp only [PosInv] at hq
    by_cases hb0 : b.Mass = 0
    · rw [Insert_leaf_empty _ _ _ _ hb0]
      simp only [PosInv]; exact hx.le
    · have hb : 0 < b.Mass := lt_of_le_of_ne hq (Ne.symm hb0)
      by_cases hd : d + 1 < maxDepth
      · rw [Insert_leaf_sub _ _ _ _ hb0 hd]
        have s0 : PosInv (node bd (AddBody b x) (subdivide bd).1 (subdivide bd).2.1
            (subdivide bd).2.2.1 (subdivide bd).2.2.2) := by
          simp only [PosInv, subdivide, NewBHTree, emptyBody, AddBody_Mass, le_refl, and_true]
          linarith
        have s1 := PosInv_routeInto bd (AddBody b x) _ _ _ _ x (d + 1)
          (fun t _ ht => ih hd t x hx ht) s0
        rw [routeInto_cases] at s1 ⊢
        cases hr : routeOf (subdivide bd).1 (subdivide bd).2.1 (subdivide bd).2.2.1 x <;>
          simp only [hr] at s1 ⊢ <;>
          exact PosInv_routeInto bd (AddBody b x) _ _ _ _ b (d + 1)
            (fun t _ ht => ih hd t b hb ht) s1
      · rw [Insert_leaf_limit _ _ _ _ hb0 hd]
        simp only [PosInv, AddBody_Mass]
        linarith
  · intro bd b nw ne sw se x d ihnw ihne ihsw ihse hx hq
    have hq1 := hq
    simp only [PosInv] at hq1
    obtain ⟨hb, k1, k2, k3, k4⟩ := hq1
    rw [Insert_node _ _ _ _ _ _ _ _ hb.ne']
    apply PosInv_routeInto bd (AddBody b x) nw ne sw se x (d + 1)
    · rintro t (rfl | rfl | rfl | rfl) ht
      · exact ihnw hx ht
      · exact ihne hx ht
      · exact ihsw hx ht
      · exact ihse hx ht
    · simp only [PosInv, AddBody_Mass]
      exact ⟨by linarith, k1, k2, k3, k4⟩

theorem PosInv_insertAll (bs : List Body) : ∀ t : BHTree, (∀ b ∈ bs, 0 < b.Mass) → PosInv t →
    PosInv (insertAll t bs) := by
  induction bs with
  | nil => intro t _ h; exact h
  | cons b bs ih =>
    intro t hpos h
    rw [insertAll_cons]
    exact ih _ (fun z hz => hpos z (List.mem_cons_of_mem b hz))
      (PosInv_Insert t b 0 (hpos b (List.mem_cons_self b bs)) h)

/-- Inserting a body at the position of the body stored where the routing leads
leaves the two aggregated in one undivided node. -/
theorem coincident_Insert : ∀ (q : BHTree) (x : Body) (d : Nat), PosInv q → 0 < x.Mass →
    ∀ y : Body, (locate q x).body = y → 0 < y.Mass → y.Position = x.Position →
    ∃ bd1 a, locate (Insert q x d) x = leaf bd1 a ∧ (a = AddBody x y ∨ a = AddBody y x) := by
  apply Insert_induction
  · intro bd b x d ih _ hx y hy hym hyp
    simp only [locate, BHTree.body] at hy
    subst hy
    by_cases hd : d + 1 < maxDepth
    · rw [Insert_leaf_sub _ _ _ _ hym.ne' hd]
      have hroute : routeOf (subdivide bd).1 (subdivide bd).2.1 (subdivide bd).2.2.1 b =
          routeOf (subdivide bd).1 (subdivide bd).2.1 (subdivide bd).2.2.1 x :=
        routeOf_pos_congr _ _ _ _ _ hyp
      have hrec : ∀ bdc : Rectangle, ∃ bd1 a,
          locate (Insert (Insert (leaf bdc emptyBody) x (d + 1)) b (d + 1)) x = leaf bd1 a ∧
            (a = AddBody x b ∨ a = AddBody b x) := by
        intro bdc
        rw [Insert_leaf_empty _ _ _ _ emptyBody_Mass]
        obtain ⟨bd1, a, h1, h2⟩ := ih hd (leaf bdc x) b (by simp only [PosInv]; exact hx.le) hym
          x rfl hx hyp.symm
        refine ⟨bd1, a, ?_, h2.symm⟩
        rw [locate_congr _ x b hyp.symm]
        exact h1
      rw [routeInto_cases]
      cases hr : routeOf (subdivide bd).1 (subdivide bd).2.1 (subdivide bd).2.2.1 x
      · simp only []
        rw [routeInto_cases, routeOf_Insert_nw, hroute, hr]
        simp only []
        rw [locate_cases, routeOf_Insert_nw, routeOf_Insert_nw, hr]
        exact hrec _
      · simp only []
        rw [routeInto_cases, routeOf_Insert_ne, hroute, hr]
        simp only []
        rw [locate_cases, routeOf_Insert_ne, routeOf_Insert_ne, hr]
        exact hrec _
      · simp only []
        rw [routeInto_cases, routeOf_Insert_sw, hroute, hr]
        simp only []
        rw [locate_cases, routeOf_Insert_sw, routeOf_Insert_sw, hr]
        exact hrec _
      · simp only []
        rw [routeInto_cases, hroute, hr]
        simp only []
        rw [locate_cases, hr]
        exact hrec _
    · rw [Insert_leaf_limit _ _ _ _ hym.ne' hd]
      exact ⟨bd, _, rfl, Or.inr rfl⟩
  · intro bd b nw ne sw se x d ihnw ihne ihsw ihse hq hx y hy hym hyp
    simp only [PosInv] at hq
    obtain ⟨hb, k1, k2, k3, k4⟩ := hq
    rw [Insert_node _ _ _ _ _ _ _ _ hb.ne', routeInto_cases]
    rw [locate_cases] at hy
    cases hr : routeOf nw ne sw x
    · simp only [hr] at hy ⊢
      rw [locate_cases, routeOf_Insert_nw, hr]
      exact ihnw k1 hx y hy hym hyp
    · simp only [hr] at hy ⊢
      rw [locate_cases, routeOf_Insert_ne, hr]
      exact ihne k2 hx y hy hym hyp
    · simp only [hr] at hy ⊢
      rw [locate_cases, routeOf_Insert_sw, hr]
      exact ihsw k3 hx y hy hym hyp
    · simp only [hr] at hy ⊢
      rw [locate_cases, hr]
      exact ihse k4 hx y hy hym hyp
/-- One routing step keeps `RoutedInv` and adds at most the routed body to the
bodies of positive mass and non-negative id held by undivided nodes. -/
theorem Routed_routeInto (bd : Rectangle) (a : Body) (nw ne sw se : BHTree) (y : Body) (e : Nat)
    (ih : ∀ t, t = nw ∨ t = ne ∨ t = sw ∨ t = se → RoutedInv t →
      RoutedInv (Insert t y e) ∧
      ∀ z ∈ leafBodies (Insert t y e), 0 < z.Mass → 0 ≤ z.Id → z = y ∨ z ∈ leafBodies t)
    (h : RoutedInv (node bd a nw ne sw se)) :
    RoutedInv (routeInto (node bd a nw ne sw se) y e) ∧
    ∀ z ∈ leafBodies (routeInto (node bd a nw ne sw se) y e), 0 < z.Mass → 0 ≤ z.Id →
      z = y ∨ z ∈ leafBodies (node bd a nw ne sw se) := by
  simp only [RoutedInv] at h
  obtain ⟨r1, r2, r3, r4, k1, k2, k3, k4⟩ := h
  rw [routeInto_cases]
  cases hr : routeOf nw ne sw y
  · obtain ⟨i1, i2⟩ := ih nw (Or.inl rfl) k1
    simp only [RoutedInv, leafBodies, routeOf_Insert_nw, List.mem_append]
    refine ⟨⟨?_, r2, r3, r4, i1, k2, k3, k4⟩, ?_⟩
    · intro z hz hm hid
      rcases i2 z hz hm hid with rfl | hz
      · exact hr
      · exact r1 z hz hm hid
    · rintro z (((hz | hz) | hz) | hz) hm hid
      · rcases i2 z hz hm hid with rfl | hz
        · exact Or.inl rfl
        · exact Or.inr (Or.inl (Or.inl (Or.inl hz)))
      · exact Or.inr (Or.inl (Or.inl (Or.inr hz)))
      · exact Or.inr (Or.inl (Or.inr hz))
      · exact Or.inr (Or.inr hz)
  · obtain ⟨i1, i2⟩ := ih ne (Or.inr (Or.inl rfl)) k2
    simp only [RoutedInv, leafBodies, routeOf_Insert_ne, List.mem_append]
    refine ⟨⟨r1, ?_, r3, r4, k1, i1, k3, k4⟩, ?_⟩
    · intro z hz hm hid
      rcases i2 z hz hm hid with rfl | hz
      · exact hr
      · exact r2 z hz hm hid
    · rintro z (((hz | hz) | hz) | hz) hm hid
      · exact Or.inr (Or.inl (Or.inl (Or.inl hz)))
      · rcases i2 z hz hm hid with rfl | hz
        · exact Or.inl rfl
        · exact Or.inr (Or.inl (Or.inl (Or.inr hz)))
      · exact Or.inr (Or.inl (Or.inr hz))
      · exact Or.inr (Or.inr hz)
  · obtain ⟨i1, i2⟩ := ih sw (Or.inr (Or.inr (Or.inl rfl))) k3
    simp only [RoutedInv, leafBodies, routeOf_Insert_sw, List.mem_append]
    refine ⟨⟨r1, r2, ?_, r4, k1, k2, i1, k4⟩, ?_⟩
    · intro z hz hm hid
      rcases i2 z hz hm hid with rfl | hz
      · exact hr
      · exact r3 z hz hm hid
    · rintro z (((hz | hz) | hz) | hz) hm hid
      · exact Or.inr (Or.inl (Or.inl (Or.inl hz)))
      · exact Or.inr (Or.inl (Or.inl (Or.inr hz)))
      · rcases i2 z hz hm hid with rfl | hz
        · exact Or.inl rfl
        · exact Or.inr (Or.inl (Or.inr hz))
      · exact Or.inr (Or.inr hz)
  · obtain ⟨i1, i2⟩ := ih se (Or.inr (Or.inr (Or.inr rfl))) k4
    simp only [RoutedInv, leafBodies, List.mem_append]
    refine ⟨⟨r1, r2, r3, ?_, k1, k2, k3, i1⟩, ?_⟩
    · intro z hz hm hid
      rcases i2 z hz hm hid with rfl | hz
      · exact hr
      · exact r4 z hz hm hid
    · rintro z (((hz | hz) | hz) | hz) hm hid
      · exact Or.inr (Or.inl (Or.inl (Or.inl hz)))
      · exact Or.inr (Or.inl (Or.inl (Or.inr hz)))
      · exact Or.inr (Or.inl (Or.inr hz))
      · rcases i2 z hz hm hid with rfl | hz
        · exact Or.inl rfl
        · exact Or.inr (Or.inr hz)
theorem Routed_Insert : ∀ (q : BHTree) (x : Body) (d : Nat), RoutedInv q →
    RoutedInv (Insert q x d) ∧
    ∀ z ∈ leafBodies (Insert q x d), 0 < z.Mass → 0 ≤ z.Id → z = x ∨ z ∈ leafBodies q := by
  apply Insert_induction
  · intro bd b x d ih _
    by_cases hb0 : b.Mass = 0
    · rw [Insert_leaf_empty _ _ _ _ hb0]
      simp only [RoutedInv, leafBodies, List.mem_singleton, true_and]
      exact fun z hz _ _ => Or.inl hz
    · by_cases hd : d + 1 < maxDepth
      · rw [Insert_leaf_sub _ _ _ _ hb0 hd]
        have s0 : RoutedInv (node bd (AddBody b x) (subdivide bd).1 (subdivide bd).2.1
            (subdivide bd).2.2.1 (subdivide bd).2.2.2) := by
          simp only [RoutedInv, subdivide, NewBHTree, leafBodies, List.mem_singleton, and_true]
          refine ⟨?_, ?_, ?_, ?_⟩ <;>
            · intro y hy hm
              subst hy
              exact absurd hm (by simp [emptyBody])
        obtain ⟨s1, l1⟩ := Routed_routeInto bd (AddBody b x) _ _ _ _ x (d + 1)
          (fun t _ ht => ih hd t x ht) s0
        have hl0 : ∀ z ∈ leafBodies (node bd (AddBody b x) (subdivide bd).1 (subdivide bd).2.1
            (subdivide bd).2.2.1 (subdivide bd).2.2.2), ¬ 0 < z.Mass := by
          intro z hz
          simp only [subdivide, NewBHTree, leafBodies, List.mem_append, List.mem_singleton,
            or_self] at hz
          subst hz
          simp [emptyBody]
        rw [routeInto_cases] at s1 l1 ⊢
        cases hr : routeOf (subdivide bd).1 (subdivide bd).2.1 (subdivide bd).2.2.1 x <;>
          simp only [hr] at s1 l1 ⊢ <;>
          · obtain ⟨s2, l2⟩ := Routed_routeInto bd (AddBody b x) _ _ _ _ b (d + 1)
              (fun t _ ht => ih hd t b ht) s1
            refine ⟨s2, ?_⟩
            intro z hz hm hid
            rcases l2 z hz hm hid with rfl | hz
            · exact Or.inr (by simp [leafBodies])
            · rcases l1 z hz hm hid with rfl | hz
              · exact Or.inl rfl
              · exact absurd hm (hl0 z hz)
      · rw [Insert_leaf_limit _ _ _ _ hb0 hd]
        simp only [RoutedInv, leafBodies, List.mem_singleton, true_and]
        intro z hz _ hid
        subst hz
        exact absurd hid (by simp [AddBody, NewBody])
  · intro bd b nw ne sw se x d ihnw ihne ihsw ihse hq
    by_cases hb0 : b.Mass = 0
    · rw [Insert_node_zero _ _ _ _ _ _ _ _ hb0]
      refine ⟨by simpa only [RoutedInv] using hq, ?_⟩
      intro z hz _ _
      exact Or.inr (by simpa only [leafBodies] using hz)
    · rw [Insert_node _ _ _ _ _ _ _ _ hb0]
      have := Routed_routeInto bd (AddBody b x) nw ne sw se x (d + 1)
        (by
          rintro t (rfl | rfl | rfl | rfl) ht
          · exact ihnw ht
          · exact ihne ht
          · exact ihsw ht
          · exact ihse ht) (by simpa only [RoutedInv] using hq)
      simpa only [leafBodies] using this

theorem RoutedInv_insertAll (bs : List Body) : ∀ t : BHTree, RoutedInv t →
    RoutedInv (insertAll t bs) := by
  induction bs with
  | nil => intro t h; exact h
  | cons b bs ih =>
    intro t h
    rw [insertAll_cons]
    exact ih _ (Routed_Insert t b 0 h).1

/-- A body of positive mass and non-negative id held by an undivided node is
found by the routing of `Insert`. -/
theorem locate_of_mem_leafBodies (q : BHTree) : ∀ y : Body, RoutedInv q → y ∈ leafBodies q →
    0 < y.Mass → 0 ≤ y.Id → (locate q y).body = y := by
  induction q with
  | leaf bd b =>
    intro y _ hy _ _
    simp only [leafBodies, List.mem_singleton] at hy
    subst hy
    rfl
  | node bd b nw ne sw se ihnw ihne ihsw ihse =>
    intro y hq hy hm hid
    simp only [RoutedInv] at hq
    obtain ⟨r1, r2, r3, r4, k1, k2, k3, k4⟩ := hq
    simp only [leafBodies, List.mem_append] at hy
    rw [locate_cases]
    rcases hy with ((hy | hy) | hy) | hy
    · rw [r1 y hy hm hid]; exact ihnw y k1 hy hm hid
    · rw [r2 y hy hm hid]; exact ihne y k2 hy hm hid
    · rw [r3 y hy hm hid]; exact ihsw y k3 hy hm hid
    · rw [r4 y hy hm hid]; exact ihse y k4 hy hm hid

/-- C9: `Insert` is a total function (its recursion is well-founded), and for
every tree built by `Insert(body, 0)` from an empty root and every body `x`:
the counter `depth` of the calls made by `Insert(x, 0)` never exceeds
`maxDepth`; in the result every node is reached within `maxDepth` levels and
no node at the depth limit is divided; and when all masses are positive and an
undivided node stores a body `y` (non-negative id) at the position of `x`, the
undivided node that the routing reaches for `x` and for `y` afterwards holds
the aggregate of exactly `x` and `y`. -/
theorem C9_insert_within_depth_limit (r : Rectangle) (bodies : List Body) (x : Body) :
    InsertDepth (insertAll (NewBHTree r) bodies) x 0 ≤ maxDepth ∧
    DepthBounded 0 (Insert (insertAll (NewBHTree r) bodies) x 0) ∧
    ((∀ b ∈ bodies, 0 < b.Mass) → 0 < x.Mass →
      ∀ y ∈ leafBodies (insertAll (NewBHTree r) bodies), 0 < y.Mass → 0 ≤ y.Id →
        y.Position = x.Position →
        ∃ bd a, locate (Insert (insertAll (NewBHTree r) bodies) x 0) x = leaf bd a ∧
          locate (Insert (insertAll (NewBHTree r) bodies) x 0) y = leaf bd a ∧
          (a = AddBody x y ∨ a = AddBody y x)) := by
  have h0 : DepthBounded 0 (NewBHTree r) := by
    simp only [NewBHTree, DepthBounded, maxDepth]
    omega
  have h1 := DepthBounded_insertAll bodies (NewBHTree r) h0
  refine ⟨(Depth_Insert _ x 0 h1).1, (Depth_Insert _ x 0 h1).2, ?_⟩
  intro hpos hx y hy hym hyid hyp
  have hp : PosInv (insertAll (NewBHTree r) bodies) :=
    PosInv_insertAll bodies (NewBHTree r) hpos (by simp [NewBHTree, PosInv, emptyBody])
  have hr : RoutedInv (insertAll (NewBHTree r) bodies) :=
    RoutedInv_insertAll bodies (NewBHTree r) (by simp [NewBHTree, RoutedInv])
  have hloc : (locate (insertAll (NewBHTree r) bodies) x).body = y := by
    rw [locate_congr _ x y hyp.symm]
    exact locate_of_mem_leafBodies _ y hr hy hym hyid
  obtain ⟨bd, a, e1, e2⟩ := coincident_Insert _ x 0 hp hx y hloc hym hyp
  exact ⟨bd, a, e1, by rw [locate_congr _ y x hyp]; exact e1, e2⟩

/-- Instance of C9: a second body at the position of the single stored one. -/
theorem C9_insert_within_depth_limit_witness :
    (∀ b ∈ [bodyNW], 0 < b.Mass) ∧ 0 < bodyTwin.Mass ∧
    bodyNW ∈ leafBodies (insertAll (NewBHTree ⟨0, 0, 100, 100⟩) [bodyNW]) ∧
    0 < bodyNW.Mass ∧ 0 ≤ bodyNW.Id ∧ bodyNW.Position = bodyTwin.Position ∧
    ∃ bd a, locate (Insert (insertAll (NewBHTree ⟨0, 0, 100, 100⟩) [bodyNW]) bodyTwin 0)
        bodyTwin = leaf bd a ∧
      locate (Insert (insertAll (NewBHTree ⟨0, 0, 100, 100⟩) [bodyNW]) bodyTwin 0)
        bodyNW = leaf bd a ∧
      (a = AddBody bodyTwin bodyNW ∨ a = AddBody bodyNW bodyTwin) :=
  have h1 : ∀ b ∈ [bodyNW], 0 < b.Mass := by simp [bodyNW, NewBody]
  have h2 : 0 < bodyTwin.Mass := by simp [bodyTwin, NewBody]
  have h3 : bodyNW ∈ leafBodies (insertAll (NewBHTree ⟨0, 0, 100, 100⟩) [bodyNW]) := by
    rw [insertAll_cons, insertAll_nil, NewBHTree, Insert_leaf_empty _ _ _ _ emptyBody_Mass]
    simp [leafBodies]
  have h4 : 0 < bodyNW.Mass := by simp [bodyNW, NewBody]
  have h5 : 0 ≤ bodyNW.Id := by simp [bodyNW, NewBody]
  have h6 : bodyNW.Position = bodyTwin.Position := rfl
  ⟨h1, h2, h3, h4, h5, h6,
    (C9_insert_within_depth_limit ⟨0, 0, 100, 100⟩ [bodyNW] bodyTwin).2.2 h1 h2 bodyNW h3 h4 h5
      h6⟩

/-! ## Empty nodes with exact arithmetic -/

theorem AddForce_zero_mass (target other : Body) (h : other.Mass = 0) :
    AddForce target other = target := by
  cases target with
  | mk m p v r i f =>
    cases f
    simp [AddForce, Vector2Scale, Vector2Add, h]

/-- On an empty node the guard of `CalculateForces` is taken only by a target
of mass 0 or id 0; for any other target the empty body is passed to
`AddForce`. -/
theorem forceTerms_empty_node (bd : Rectangle) (target : Body) :
    forceTerms (NewBHTree bd) target =
      (if target.Mass = 0 ∨ target.Id = 0 then [] else [emptyBody]) := by
  have hid : (emptyBody.Id = target.Id) = (target.Id = 0) := by
    simp only [emptyBody, eq_comm]
  simp only [NewBHTree, forceTerms, hid]

/-! ## C12: insertion order -/

theorem AddBody_comm (a b : Body) : AddBody a b = AddBody b a := by
  simp only [AddBody, NewBody, NewVector2, add_comm a.Mass b.Mass,
    add_comm (a.Position.X * a.Mass), add_comm (a.Position.Y * a.Mass),
    add_comm (a.Velocity.X * a.Mass), add_comm (a.Velocity.Y * a.Mass)]

theorem AddBody_right_comm (c a b : Body) (hc : 0 ≤ c.Mass) (ha : 0 < a.Mass)
    (hb : 0 < b.Mass) : AddBody (AddBody c a) b = AddBody (AddBody c b) a := by
  have h1 : c.Mass + a.Mass ≠ 0 := by linarith
  have h2 : c.Mass + b.Mass ≠ 0 := by linarith
  have h3 : c.Mass + a.Mass + b.Mass ≠ 0 := by linarith
  have h4 : c.Mass + b.Mass + a.Mass ≠ 0 := by linarith
  simp only [AddBody, NewBody, NewVector2, Body.mk.injEq, Vector2.mk.injEq, and_true]
  refine ⟨by ring, ⟨?_, ?_⟩, ⟨?_, ?_⟩, by ring⟩ <;>
    · field_simp
      ring

theorem routeInto_setBody (n : BHTree) (B x : Body) (e : Nat) :
    routeInto (setBody n B) x e = setBody (routeInto n x e) B := by
  cases n with
  | leaf bd b => rfl
  | node bd b nw ne sw se =>
    simp only [setBody, routeInto]
    split_ifs <;> rfl

theorem setBody_setBody (n : BHTree) (B C : Body) : setBody (setBody n B) C = setBody n C := by
  cases n <;> rfl

theorem body_routeInto (n : BHTree) (x : Body) (e : Nat) :
    (routeInto n x e).body = n.body := by
  cases n with
  | leaf bd b => rfl
  | node bd b nw ne sw se =>
    simp only [routeInto]
    split_ifs <;> rfl

theorem divided_routeInto (n : BHTree) (x : Body) (e : Nat) :
    (routeInto n x e).divided = n.divided := by
  cases n with
  | leaf bd b => rfl
  | node bd b nw ne sw se =>
    simp only [routeInto]
    split_ifs <;> rfl

/-- `Insert` at a divided node of non-zero mass, in terms of `setBody`. -/
theorem Insert_divided (n : BHTree) (x : Body) (d : Nat) (hdiv : n.divided = true)
    (hm : n.body.Mass ≠ 0) :
    Insert n x d = setBody (routeInto n x (d + 1)) (AddBody n.body x) := by
  cases n with
  | leaf bd b => simp [BHTree.divided] at hdiv
  | node bd b nw ne sw se =>
    have hm1 : b.Mass ≠ 0 := hm
    rw [Insert_node _ _ _ _ _ _ _ _ hm1, ← routeInto_setBody]
    rfl
/-- Two routing steps at a divided node commute when the insertions commute
in each child. -/
theorem routeInto_comm (bd : Rectangle) (B : Body) (nw ne sw se : BHTree) (x y : Body) (e : Nat)
    (ih : ∀ t, t = nw ∨ t = ne ∨ t = sw ∨ t = se →
      Insert (Insert t x e) y e = Insert (Insert t y e) x e) :
    routeInto (routeInto (node bd B nw ne sw se) x e) y e =
      routeInto (routeInto (node bd B nw ne sw se) y e) x e := by
  have i1 := ih nw (Or.inl rfl)
  have i2 := ih ne (Or.inr (Or.inl rfl))
  have i3 := ih sw (Or.inr (Or.inr (Or.inl rfl)))
  have i4 := ih se (Or.inr (Or.inr (Or.inr rfl)))
  cases hx : routeOf nw ne sw x <;> cases hy : routeOf nw ne sw y <;>
    simp only [routeInto_cases, routeOf_Insert_nw, routeOf_Insert_ne, routeOf_Insert_sw, hx, hy,
      i1, i2, i3, i4]
theorem PosInv_routeInto_all (n : BHTree) (y : Body) (e : Nat) (hy : 0 < y.Mass)
    (hn : PosInv n) : PosInv (routeInto n y e) := by
  cases n with
  | leaf bd b => exact hn
  | node bd b nw ne sw se =>
    exact PosInv_routeInto bd b nw ne sw se y e (fun t _ ht => PosInv_Insert t y e hy ht) hn

/-- Two routing steps commute on every tree of `PosInv` when the insertions
commute on every such tree. -/
theorem routeInto_comm_all (n : BHTree) (x y : Body) (e : Nat) (hn : PosInv n)
    (ih : ∀ t, PosInv t → Insert (Insert t x e) y e = Insert (Insert t y e) x e) :
    routeInto (routeInto n x e) y e = routeInto (routeInto n y e) x e := by
  cases n with
  | leaf bd b => rfl
  | node bd b nw ne sw se =>
    simp only [PosInv] at hn
    obtain ⟨_, k1, k2, k3, k4⟩ := hn
    apply routeInto_comm
    rintro t (rfl | rfl | rfl | rfl)
    · exact ih _ k1
    · exact ih _ k2
    · exact ih _ k3
    · exact ih _ k4

/-- `Insert` at a divided node whose body has been set to `B`. -/
theorem Insert_setBody (n : BHTree) (B b : Body) (d : Nat) (hdiv : n.divided = true)
    (hB : B.Mass ≠ 0) :
    Insert (setBody n B) b d = setBody (routeInto n b (d + 1)) (AddBody B b) := by
  cases n with
  | leaf bd c => simp [BHTree.divided] at hdiv
  | node bd c nw ne sw se =>
    simp only [setBody]
    rw [Insert_node _ _ _ _ _ _ _ _ hB]
    simp only [routeInto]
    split_ifs <;> rfl

/-- `Insert` at an undivided node that stores `c`, below the depth limit. -/
theorem Insert_leaf_sub_setBody (bd : Rectangle) (c a K : Body) (d : Nat) (hc : c.Mass ≠ 0)
    (hd : d + 1 < maxDepth) :
    Insert (leaf bd c) a d =
      setBody (routeInto (routeInto (node bd K (subdivide bd).1 (subdivide bd).2.1
        (subdivide bd).2.2.1 (subdivide bd).2.2.2) a (d + 1)) c (d + 1)) (AddBody c a) := by
  rw [Insert_leaf_sub _ _ _ _ hc hd, ← routeInto_setBody, ← routeInto_setBody]
  rfl

theorem PosInv_subdivide (bd : Rectangle) (K : Body) (hK : 0 < K.Mass) :
    PosInv (node bd K (subdivide bd).1 (subdivide bd).2.1 (subdivide bd).2.2.1
      (subdivide bd).2.2.2) := by
  simp only [PosInv, subdivide, NewBHTree, emptyBody, le_refl, and_true]
  exact hK

/-- Two insertions of bodies of positive mass commute on every tree whose
divided nodes carry a positive mass. -/
theorem Insert_comm : ∀ (q : BHTree) (_x : Body) (d : Nat), PosInv q →
    ∀ a b : Body, 0 < a.Mass → 0 < b.Mass →
      Insert (Insert q a d) b d = Insert (Insert q b d) a d := by
  apply Insert_induction
  · intro bd c _ d ih hq a b ha hb
    simp only [PosInv] at hq
    by_cases hd : d + 1 < maxDepth
    · have hcomm : ∀ (x y : Body), 0 < x.Mass → 0 < y.Mass → ∀ n, PosInv n →
          routeInto (routeInto n x (d + 1)) y (d + 1) =
            routeInto (routeInto n y (d + 1)) x (d + 1) :=
        fun x y hx hy n hn => routeInto_comm_all n x y (d + 1) hn
          (fun t ht => ih hd t x ht x y hx hy)
      by_cases hc0 : c.Mass = 0
      · rw [Insert_leaf_empty _ _ _ _ hc0, Insert_leaf_empty _ _ _ _ hc0,
          Insert_leaf_sub_setBody bd a b a d ha.ne' hd,
          Insert_leaf_sub_setBody bd b a a d hb.ne' hd, AddBody_comm b a,
          hcomm b a hb ha _ (PosInv_subdivide bd a ha)]
      · have hc : 0 < c.Mass := lt_of_le_of_ne hq (Ne.symm hc0)
        have hK := PosInv_subdivide bd c hc
        rw [Insert_leaf_sub_setBody bd c a c d hc0 hd,
          Insert_leaf_sub_setBody bd c b c d hc0 hd,
          Insert_setBody _ _ _ _ (by rw [divided_routeInto, divided_routeInto]; rfl)
            (by rw [AddBody_Mass]; linarith),
          Insert_setBody _ _ _ _ (by rw [divided_routeInto, divided_routeInto]; rfl)
            (by rw [AddBody_Mass]; linarith),
          AddBody_right_comm c a b hq ha hb]
        congr 1
        rw [hcomm c b hc hb _ (PosInv_routeInto_all _ a (d + 1) ha hK),
          hcomm a b ha hb _ hK,
          hcomm a c ha hc _ (PosInv_routeInto_all _ b (d + 1) hb hK)]
    · by_cases hc0 : c.Mass = 0
      · rw [Insert_leaf_empty _ _ _ _ hc0, Insert_leaf_empty _ _ _ _ hc0,
          Insert_leaf_limit _ _ _ _ ha.ne' hd, Insert_leaf_limit _ _ _ _ hb.ne' hd,
          AddBody_comm a b]
      · have hc : 0 < c.Mass := lt_of_le_of_ne hq (Ne.symm hc0)
        rw [Insert_leaf_limit _ _ _ _ hc0 hd, Insert_leaf_limit _ _ _ _ hc0 hd,
          Insert_leaf_limit _ _ _ _ (by rw [AddBody_Mass]; linarith) hd,
          Insert_leaf_limit _ _ _ _ (by rw [AddBody_Mass]; linarith) hd,
          AddBody_right_comm c a b hq ha hb]
  · intro bd q nw ne sw se _ d ihnw ihne ihsw ihse hq a b ha hb
    simp only [PosInv] at hq
    obtain ⟨hqm, k1, k2, k3, k4⟩ := hq
    have e1 : ∀ z : Body, Insert (node bd q nw ne sw se) z d =
        setBody (routeInto (node bd q nw ne sw se) z (d + 1)) (AddBody q z) :=
      fun z => Insert_divided _ z d rfl hqm.ne'
    rw [e1 a, e1 b,
      Insert_setBody _ _ _ _ (by rw [divided_routeInto]; rfl) (by rw [AddBody_Mass]; linarith),
      Insert_setBody _ _ _ _ (by rw [divided_routeInto]; rfl) (by rw [AddBody_Mass]; linarith),
      AddBody_right_comm q a b hqm.le ha hb]
    congr 1
    apply routeInto_comm
    rintro t (rfl | rfl | rfl | rfl)
    · exact ihnw k1 a b ha hb
    · exact ihne k2 a b ha hb
    · exact ihsw k3 a b ha hb
    · exact ihse k4 a b ha hb
theorem insertAll_perm (L L1 : List Body) (hp : L.Perm L1) : ∀ t : BHTree, PosInv t →
    (∀ b ∈ L, 0 < b.Mass) → insertAll t L = insertAll t L1 := by
  induction hp with
  | nil => intro t _ _; rfl
  | cons x _ ih =>
    intro t ht hpos
    rw [insertAll_cons, insertAll_cons]
    exact ih _ (PosInv_Insert t x 0 (hpos x (List.mem_cons_self _ _)) ht)
      (fun b hb => hpos b (List.mem_cons_of_mem _ hb))
  | swap x y l =>
    intro t ht hpos
    have hx : 0 < x.Mass := hpos x (by simp)
    have hy : 0 < y.Mass := hpos y (by simp)
    rw [insertAll_cons, insertAll_cons, insertAll_cons, insertAll_cons,
      Insert_comm t x 0 ht y x hy hx]
  | trans h1 _ ih1 ih2 =>
    intro t ht hpos
    rw [ih1 t ht hpos]
    exact ih2 t ht (fun b hb => hpos b (h1.mem_iff.mpr hb))

/-- C12: for every root rectangle, every list of bodies of positive mass and
every permutation of it, inserting the bodies with `Insert(body, 0)` into an
empty tree in either order gives the same tree (boundaries, divided flags and
bodies of all nodes), in exact arithmetic; so `addToTree` returns the same tree
for the bodies in channel order and in index order. -/
theorem C12_insertion_order_irrelevant (r : Rectangle) (bodies permuted : List Body)
    (hperm : bodies.Perm permuted) (hpos : ∀ b ∈ bodies, 0 < b.Mass) :
    insertAll (NewBHTree r) bodies = insertAll (NewBHTree r) permuted ∧
    ∀ W H : Int, addToTree W H bodies = addToTree W H permuted := by
  have h0 : ∀ r : Rectangle, PosInv (NewBHTree r) := by
    intro r
    simp [NewBHTree, PosInv, emptyBody]
  exact ⟨insertAll_perm bodies permuted hperm _ (h0 r) hpos,
    fun W H => insertAll_perm bodies permuted hperm _ (h0 _) hpos⟩

/-- Instance of C12 for three bodies in the window `100 x 100`. -/
theorem C12_insertion_order_irrelevant_witness :
    [bodyNW, bodyNE, bodyEdge].Perm [bodyEdge, bodyNW, bodyNE] ∧
    (∀ b ∈ [bodyNW, bodyNE, bodyEdge], 0 < b.Mass) ∧
    (insertAll (NewBHTree ⟨0, 0, 100, 100⟩) [bodyNW, bodyNE, bodyEdge] =
      insertAll (NewBHTree ⟨0, 0, 100, 100⟩) [bodyEdge, bodyNW, bodyNE] ∧
    ∀ W H : Int, addToTree W H [bodyNW, bodyNE, bodyEdge] =
      addToTree W H [bodyEdge, bodyNW, bodyNE]) :=
  have hp : [bodyNW, bodyNE, bodyEdge].Perm [bodyEdge, bodyNW, bodyNE] :=
    @List.perm_append_comm _ [bodyNW, bodyNE] [bodyEdge]
  have hm : ∀ b ∈ [bodyNW, bodyNE, bodyEdge], 0 < b.Mass := by
    simp [bodyNW, bodyNE, bodyEdge, NewBody]
  ⟨hp, hm, C12_insertion_order_irrelevant ⟨0, 0, 100, 100⟩ _ _ hp hm⟩

/-! ## binary32 rounding -/

theorem roundEven_of_lt (y : ℚ) (n : ℤ) (h1 : (n : ℚ) - 1 / 2 < y) (h2 : y < n + 1 / 2) :
    roundEven y = n := by
  simp only [roundEven]
  by_cases hf : ⌊y⌋ = n
  · rw [hf]
    have h3 : (n : ℚ) ≤ y := by rw [← hf]; exact Int.floor_le y
    rw [if_pos (by linarith)]
  · have hf1 : ⌊y⌋ = n - 1 := by
      rw [Int.floor_eq_iff]
      push_cast
      constructor
      · linarith
      · by_contra hc
        apply hf
        rw [Int.floor_eq_iff]
        constructor <;> linarith
    rw [hf1]
    push_cast
    rw [if_neg (by linarith), if_pos (by linarith)]
    ring

theorem roundEven_tie (y : ℚ) (n : ℤ) (hn : n % 2 = 0) (h : y = n + 1 / 2 ∨ y = n - 1 / 2) :
    roundEven y = n := by
  simp only [roundEven]
  rcases h with h | h
  · have hf : ⌊y⌋ = n := by
      rw [Int.floor_eq_iff]; constructor <;> linarith
    rw [hf, if_neg (by linarith), if_neg (by linarith), if_pos hn]
  · have hf : ⌊y⌋ = n - 1 := by
      rw [Int.floor_eq_iff]; push_cast; constructor <;> linarith
    have hodd : (n - 1) % 2 ≠ 0 := by omega
    rw [hf]
    push_cast
    rw [if_neg (by linarith), if_neg (by linarith), if_neg hodd]
    ring

/-- Certificate for a value of `fl32` on a positive argument in the binade
`[2^e, 2^(e+1))`, `e ≥ -126`. -/
theorem fl32_eq_of_binade (x : ℚ) (e n : ℤ) (he : -126 ≤ e) (h1 : (2 : ℚ) ^ e ≤ x)
    (h2 : x < (2 : ℚ) ^ (e + 1)) (hr : roundEven (x / 2 ^ (e - 23)) = n) :
    fl32 x = n * 2 ^ (e - 23) := by
  have hx : 0 < x := lt_of_lt_of_le (by positivity) h1
  have hlog : Int.log 2 |x| = e := by
    rw [abs_of_pos hx]
    apply le_antisymm
    · have := (Int.lt_zpow_iff_log_lt (by norm_num : 1 < (2 : ℕ)) hx).mp (by exact_mod_cast h2)
      omega
    · exact (Int.zpow_le_iff_le_log (by norm_num : 1 < (2 : ℕ)) hx).mp (by exact_mod_cast h1)
  simp only [fl32, hx.ne', if_false, hlog, max_eq_left he, hr]


/-! ## `InsertR` -/

theorem InsertR_leaf_empty (rnd : ℚ → ℚ) (bd : Rectangle) (b x : Body) (d : Nat)
    (h : b.Mass = 0) : InsertR rnd (leaf bd b) x d = leaf bd x := by
  rw [InsertR]; simp [h]

theorem InsertR_leaf_limit (rnd : ℚ → ℚ) (bd : Rectangle) (b x : Body) (d : Nat)
    (h : b.Mass ≠ 0) (hd : ¬ d + 1 < maxDepth) :
    InsertR rnd (leaf bd b) x d = leaf bd (AddBodyR rnd b x) := by
  rw [InsertR]; simp [h, hd]

theorem InsertR_node_zero (rnd : ℚ → ℚ) (bd : Rectangle) (b : Body) (nw ne sw se : BHTree)
    (x : Body) (d : Nat) (h : b.Mass = 0) :
    InsertR rnd (node bd b nw ne sw se) x d = node bd x nw ne sw se := by
  rw [InsertR]; simp [h]

theorem InsertR_node (rnd : ℚ → ℚ) (bd : Rectangle) (b : Body) (nw ne sw se : BHTree)
    (x : Body) (d : Nat) (h : b.Mass ≠ 0) :
    InsertR rnd (node bd b nw ne sw se) x d =
      routeIntoR rnd (node bd (AddBodyR rnd b x) nw ne sw se) x (d + 1) := by
  rw [InsertR]; simp [h, routeIntoR]

theorem InsertR_leaf_sub (rnd : ℚ → ℚ) (bd : Rectangle) (b x : Body) (d : Nat)
    (h : b.Mass ≠ 0) (hd : d + 1 < maxDepth) :
    InsertR rnd (leaf bd b) x d =
      routeIntoR rnd (routeIntoR rnd (node bd (AddBodyR rnd b x) (subdivideR rnd bd).1
        (subdivideR rnd bd).2.1 (subdivideR rnd bd).2.2.1 (subdivideR rnd bd).2.2.2) x (d + 1))
        b (d + 1) := by
  rw [InsertR]; simp only [h, hd, if_false, dite_true]
  simp only [routeIntoR]
  split_ifs <;> simp_all [routeIntoR]
theorem containsR_id (q : BHTree) (b : Body) : containsR id q b = q.contains b := rfl

theorem subdivideR_id (bd : Rectangle) : subdivideR id bd = subdivide bd := rfl

theorem AddBodyR_id (b1 b2 : Body) : AddBodyR id b1 b2 = AddBody b1 b2 := rfl

theorem routeIntoR_id (t : BHTree) (y : Body) (e : Nat)
    (ih : ∀ c, InsertR id c y e = Insert c y e) : routeIntoR id t y e = routeInto t y e := by
  cases t with
  | leaf bd b => rfl
  | node bd b nw ne sw se => simp only [routeIntoR, routeInto, containsR_id, ih]

/-- With `rnd = id` the rounded `InsertR` is `Insert`. -/
theorem InsertR_id : ∀ (q : BHTree) (x : Body) (d : Nat), InsertR id q x d = Insert q x d := by
  have key : ∀ (q : BHTree) (_x : Body) (d : Nat), ∀ y, InsertR id q y d = Insert q y d := by
    apply Insert_induction
    · intro bd b _ d ih y
      by_cases hb : b.Mass = 0
      · rw [InsertR_leaf_empty _ _ _ _ _ hb, Insert_leaf_empty _ _ _ _ hb]
      · by_cases hd : d + 1 < maxDepth
        · rw [InsertR_leaf_sub _ _ _ _ _ hb hd, Insert_leaf_sub _ _ _ _ hb hd, subdivideR_id,
            AddBodyR_id, routeIntoR_id _ _ _ (fun c => ih hd c y y),
            routeIntoR_id _ _ _ (fun c => ih hd c y b)]
        · rw [InsertR_leaf_limit _ _ _ _ _ hb hd, Insert_leaf_limit _ _ _ _ hb hd, AddBodyR_id]
    · intro bd b nw ne sw se _ d ihnw ihne ihsw ihse y
      by_cases hb : b.Mass = 0
      · rw [InsertR_node_zero _ _ _ _ _ _ _ _ _ hb, Insert_node_zero _ _ _ _ _ _ _ _ hb]
      · rw [InsertR_node _ _ _ _ _ _ _ _ _ hb, Insert_node _ _ _ _ _ _ _ _ hb, AddBodyR_id]
        simp only [routeIntoR, routeInto, containsR_id, ihnw y, ihne y, ihsw y, ihse y]
  exact fun q x d => key q x d x

/-- With `rnd = id` the property `ContainedR` is `Contained`. -/
theorem ContainedR_id (t : BHTree) : ∀ anc, ContainedR id anc t ↔ Contained anc t := by
  induction t with
  | leaf bd b =>
    intro anc
    simp only [ContainedR, Contained, containsR_id]
  | node bd b nw ne sw se ihnw ihne ihsw ihse =>
    intro anc
    simp only [ContainedR, Contained, ihnw, ihne, ihsw, ihse]

/-! ## C2: containment over binary32 -/

theorem fl32_half : fl32 (11184811 / 2) = 11184811 / 2 := by
  rw [fl32_eq_of_binade (11184811 / 2) 22 11184811 (by norm_num) (by norm_num) (by norm_num)
    (roundEven_of_lt _ _ (by norm_num) (by norm_num))]
  norm_num

theorem fl32_full : fl32 11184811 = 11184811 := by
  rw [fl32_eq_of_binade 11184811 23 11184811 (by norm_num) (by norm_num) (by norm_num)
    (roundEven_of_lt _ _ (by norm_num) (by norm_num))]
  norm_num

theorem fl32_quarter : fl32 (11184811 / 4) = 11184811 / 4 := by
  rw [fl32_eq_of_binade (11184811 / 4) 21 11184811 (by norm_num) (by norm_num) (by norm_num)
    (roundEven_of_lt _ _ (by norm_num) (by norm_num))]
  norm_num

theorem fl32_eighth : fl32 (11184811 / 8) = 11184811 / 8 := by
  rw [fl32_eq_of_binade (11184811 / 8) 20 11184811 (by norm_num) (by norm_num) (by norm_num)
    (roundEven_of_lt _ _ (by norm_num) (by norm_num))]
  norm_num

theorem fl32_corner2 : fl32 (33554433 / 4) = 8388608 := by
  rw [fl32_eq_of_binade (33554433 / 4) 23 8388608 (by norm_num) (by norm_num) (by norm_num)
    (roundEven_of_lt _ _ (by norm_num) (by norm_num))]
  norm_num

theorem fl32_edge2 : fl32 (44739243 / 4) = 11184811 := by
  rw [fl32_eq_of_binade (44739243 / 4) 23 11184811 (by norm_num) (by norm_num) (by norm_num)
    (roundEven_of_lt _ _ (by norm_num) (by norm_num))]
  norm_num

theorem fl32_corner3 : fl32 (78293675 / 8) = 9786709 := by
  rw [fl32_eq_of_binade (78293675 / 8) 23 9786709 (by norm_num) (by norm_num) (by norm_num)
    (roundEven_of_lt _ _ (by norm_num) (by norm_num))]
  norm_num

theorem fl32_edge3 : fl32 (89478483 / 8) = 11184810 := by
  rw [fl32_eq_of_binade (89478483 / 8) 23 11184810 (by norm_num) (by norm_num) (by norm_num)
    (roundEven_of_lt _ _ (by norm_num) (by norm_num))]
  norm_num

theorem fl32_zero : fl32 0 = 0 := by simp [fl32]

theorem routeIntoR_nw (rnd : ℚ → ℚ) (bd : Rectangle) (b : Body) (nw ne sw se : BHTree)
    (x : Body) (d : Nat) (h : containsR rnd nw x = true) :
    routeIntoR rnd (node bd b nw ne sw se) x d = node bd b (InsertR rnd nw x d) ne sw se := by
  simp only [routeIntoR, h, if_true]

theorem routeIntoR_ne (rnd : ℚ → ℚ) (bd : Rectangle) (b : Body) (nw ne sw se : BHTree)
    (x : Body) (d : Nat) (h1 : containsR rnd nw x = false) (h2 : containsR rnd ne x = true) :
    routeIntoR rnd (node bd b nw ne sw se) x d = node bd b nw (InsertR rnd ne x d) sw se := by
  simp [routeIntoR, h1, h2]

theorem routeIntoR_se (rnd : ℚ → ℚ) (bd : Rectangle) (b : Body) (nw ne sw se : BHTree)
    (x : Body) (d : Nat) (h1 : containsR rnd nw x = false) (h2 : containsR rnd ne x = false)
    (h3 : containsR rnd sw x = false) :
    routeIntoR rnd (node bd b nw ne sw se) x d = node bd b nw ne sw (InsertR rnd se x d) := by
  simp [routeIntoR, h1, h2, h3]

theorem roundTree_level3 :
    InsertR fl32 (leaf ⟨8388608, 0, 11184811 / 4, 11184811 / 4⟩ roundA) roundB 2 =
      node ⟨8388608, 0, 11184811 / 4, 11184811 / 4⟩ (AddBodyR fl32 roundA roundB)
        (leaf ⟨8388608, 0, 11184811 / 8, 11184811 / 8⟩ roundA)
        (leaf ⟨9786709, 0, 11184811 / 8, 11184811 / 8⟩ emptyBody)
        (leaf ⟨9786709, 11184811 / 8, 11184811 / 8, 11184811 / 8⟩ emptyBody)
        (leaf ⟨8388608, 11184811 / 8, 11184811 / 8, 11184811 / 8⟩ roundB) := by
  have hA : roundA.Mass ≠ 0 := by norm_num [roundA, NewBody]
  have c1 : containsR fl32 (leaf ⟨8388608, 0, 11184811 / 8, 11184811 / 8⟩ emptyBody) roundB
      = false := by
    norm_num [containsR, BHTree.boundary, roundB, NewBody, fl32_corner3]
  have c2 : containsR fl32 (leaf ⟨9786709, 0, 11184811 / 8, 11184811 / 8⟩ emptyBody) roundB
      = false := by
    norm_num [containsR, BHTree.boundary, roundB, NewBody, fl32_edge3]
  have c3 : containsR fl32
      (leaf ⟨9786709, 11184811 / 8, 11184811 / 8, 11184811 / 8⟩ emptyBody) roundB = false := by
    norm_num [containsR, BHTree.boundary, roundB, NewBody, fl32_edge3]
  have c4 : containsR fl32 (leaf ⟨8388608, 0, 11184811 / 8, 11184811 / 8⟩ emptyBody) roundA
      = true := by
    norm_num [containsR, BHTree.boundary, roundA, NewBody, fl32_corner3, fl32_eighth]
  rw [InsertR_leaf_sub _ _ _ _ _ hA (by norm_num [maxDepth])]
  simp only [subdivideR, NewBHTree, fl32_eighth]
  norm_num only [fl32_eighth, fl32_corner3]
  rw [routeIntoR_se _ _ _ _ _ _ _ _ _ c1 c2 c3, InsertR_leaf_empty _ _ _ _ _ emptyBody_Mass,
    routeIntoR_nw _ _ _ _ _ _ _ _ _ c4, InsertR_leaf_empty _ _ _ _ _ emptyBody_Mass]

theorem roundTree_level2 :
    InsertR fl32 (leaf ⟨11184811 / 2, 0, 11184811 / 2, 11184811 / 2⟩ roundB) roundA 1 =
      node ⟨11184811 / 2, 0, 11184811 / 2, 11184811 / 2⟩ (AddBodyR fl32 roundB roundA)
        (leaf ⟨11184811 / 2, 0, 11184811 / 4, 11184811 / 4⟩ emptyBody)
        (node ⟨8388608, 0, 11184811 / 4, 11184811 / 4⟩ (AddBodyR fl32 roundA roundB)
          (leaf ⟨8388608, 0, 11184811 / 8, 11184811 / 8⟩ roundA)
          (leaf ⟨9786709, 0, 11184811 / 8, 11184811 / 8⟩ emptyBody)
          (leaf ⟨9786709, 11184811 / 8, 11184811 / 8, 11184811 / 8⟩ emptyBody)
          (leaf ⟨8388608, 11184811 / 8, 11184811 / 8, 11184811 / 8⟩ roundB))
        (leaf ⟨8388608, 11184811 / 4, 11184811 / 4, 11184811 / 4⟩ emptyBody)
        (leaf ⟨11184811 / 2, 11184811 / 4, 11184811 / 4, 11184811 / 4⟩ emptyBody) := by
  have hB : roundB.Mass ≠ 0 := by norm_num [roundB, NewBody]
  have c1 : containsR fl32 (leaf ⟨11184811 / 2, 0, 11184811 / 4, 11184811 / 4⟩ emptyBody)
      roundA = false := by
    norm_num [containsR, BHTree.boundary, roundA, NewBody, fl32_corner2]
  have c2 : containsR fl32 (leaf ⟨8388608, 0, 11184811 / 4, 11184811 / 4⟩ emptyBody) roundA
      = true := by
    norm_num [containsR, BHTree.boundary, roundA, NewBody, fl32_edge2, fl32_quarter]
  have c3 : containsR fl32 (leaf ⟨11184811 / 2, 0, 11184811 / 4, 11184811 / 4⟩ emptyBody)
      roundB = false := by
    norm_num [containsR, BHTree.boundary, roundB, NewBody, fl32_corner2]
  have c4 : containsR fl32 (leaf ⟨8388608, 0, 11184811 / 4, 11184811 / 4⟩ roundA) roundB
      = true := by
    norm_num [containsR, BHTree.boundary, roundB, NewBody, fl32_edge2, fl32_quarter]
  rw [InsertR_leaf_sub _ _ _ _ _ hB (by norm_num [maxDepth])]
  simp only [subdivideR, NewBHTree, fl32_quarter]
  norm_num only [fl32_quarter, fl32_corner2]
  rw [routeIntoR_ne _ _ _ _ _ _ _ _ _ c1 c2, InsertR_leaf_empty _ _ _ _ _ emptyBody_Mass,
    routeIntoR_ne _ _ _ _ _ _ _ _ _ c3 c4, roundTree_level3]

theorem roundTree_level1 :
    InsertR fl32 (InsertR fl32 (NewBHTree ⟨0, 0, 11184811, 11184811⟩) roundA 0) roundB 0 =
      node ⟨0, 0, 11184811, 11184811⟩ (AddBodyR fl32 roundA roundB)
        (leaf ⟨0, 0, 11184811 / 2, 11184811 / 2⟩ emptyBody)
        (node ⟨11184811 / 2, 0, 11184811 / 2, 11184811 / 2⟩ (AddBodyR fl32 roundB roundA)
          (leaf ⟨11184811 / 2, 0, 11184811 / 4, 11184811 / 4⟩ emptyBody)
          (node ⟨8388608, 0, 11184811 / 4, 11184811 / 4⟩ (AddBodyR fl32 roundA roundB)
            (leaf ⟨8388608, 0, 11184811 / 8, 11184811 / 8⟩ roundA)
            (leaf ⟨9786709, 0, 11184811 / 8, 11184811 / 8⟩ emptyBody)
            (leaf ⟨9786709, 11184811 / 8, 11184811 / 8, 11184811 / 8⟩ emptyBody)
            (leaf ⟨8388608, 11184811 / 8, 11184811 / 8, 11184811 / 8⟩ roundB))
          (leaf ⟨8388608, 11184811 / 4, 11184811 / 4, 11184811 / 4⟩ emptyBody)
          (leaf ⟨11184811 / 2, 11184811 / 4, 11184811 / 4, 11184811 / 4⟩ emptyBody))
        (leaf ⟨11184811 / 2, 11184811 / 2, 11184811 / 2, 11184811 / 2⟩ emptyBody)
        (leaf ⟨0, 11184811 / 2, 11184811 / 2, 11184811 / 2⟩ emptyBody) := by
  have hA : roundA.Mass ≠ 0 := by norm_num [roundA, NewBody]
  have c1 : containsR fl32 (leaf ⟨0, 0, 11184811 / 2, 11184811 / 2⟩ emptyBody) roundB
      = false := by
    norm_num [containsR, BHTree.boundary, roundB, NewBody, fl32_half]
  have c2 : containsR fl32 (leaf ⟨11184811 / 2, 0, 11184811 / 2, 11184811 / 2⟩ emptyBody)
      roundB = true := by
    norm_num [containsR, BHTree.boundary, roundB, NewBody, fl32_half, fl32_full]
  have c3 : containsR fl32 (leaf ⟨0, 0, 11184811 / 2, 11184811 / 2⟩ emptyBody) roundA
      = false := by
    norm_num [containsR, BHTree.boundary, roundA, NewBody, fl32_half]
  have c4 : containsR fl32 (leaf ⟨11184811 / 2, 0, 11184811 / 2, 11184811 / 2⟩ roundB)
      roundA = true := by
    norm_num [containsR, BHTree.boundary, roundA, NewBody, fl32_half, fl32_full]
  rw [NewBHTree, InsertR_leaf_empty _ _ _ _ _ emptyBody_Mass,
    InsertR_leaf_sub _ _ _ _ _ hA (by norm_num [maxDepth])]
  simp only [subdivideR, NewBHTree, fl32_half]
  norm_num only [fl32_half]
  rw [routeIntoR_ne _ _ _ _ _ _ _ _ _ c1 c2, InsertR_leaf_empty _ _ _ _ _ emptyBody_Mass,
    routeIntoR_ne _ _ _ _ _ _ _ _ _ c3 c4, roundTree_level2]

theorem fl32_first : fl32 8388609 = 8388609 := by
  rw [fl32_eq_of_binade 8388609 23 8388609 (by norm_num) (by norm_num) (by norm_num)
    (roundEven_of_lt _ _ (by norm_num) (by norm_num))]
  norm_num

/-- C2 (counterexample, binary32): window `11184811 x 11184811`, bodies of mass
1 at `(8388609, 0)` and at `(11184811, 0)`, inserted in this order with depth
`0`.  The window and the coordinates are binary32 values and the root contains
both bodies.  In binary32 the right edge of the north-east grandchild of the
quadrant `(8388608, 0, 2796202.75, 2796202.75)` is `9786709 + 1398101.375`,
which rounds to `11184810`, so the second body is in none of the first three
children and falls through to the last one, `(8388608, 1398101.375,
1398101.375, 1398101.375)`, an undivided node that holds the body and does not
contain it. -/
theorem C2_containment_fails_in_binary32 :
    fl32 11184811 = 11184811 ∧ fl32 8388609 = 8388609 ∧ fl32 0 = 0 ∧
    0 < roundA.Mass ∧ 0 < roundB.Mass ∧
    containsR fl32 (NewBHTree ⟨0, 0, 11184811, 11184811⟩) roundA = true ∧
    containsR fl32 (NewBHTree ⟨0, 0, 11184811, 11184811⟩) roundB = true ∧
    InsertR fl32 (InsertR fl32 (NewBHTree ⟨0, 0, 11184811, 11184811⟩) roundA 0) roundB 0 =
      node ⟨0, 0, 11184811, 11184811⟩ (AddBodyR fl32 roundA roundB)
        (leaf ⟨0, 0, 11184811 / 2, 11184811 / 2⟩ emptyBody)
        (node ⟨11184811 / 2, 0, 11184811 / 2, 11184811 / 2⟩ (AddBodyR fl32 roundB roundA)
          (leaf ⟨11184811 / 2, 0, 11184811 / 4, 11184811 / 4⟩ emptyBody)
          (node ⟨8388608, 0, 11184811 / 4, 11184811 / 4⟩ (AddBodyR fl32 roundA roundB)
            (leaf ⟨8388608, 0, 11184811 / 8, 11184811 / 8⟩ roundA)
            (leaf ⟨9786709, 0, 11184811 / 8, 11184811 / 8⟩ emptyBody)
            (leaf ⟨9786709, 11184811 / 8, 11184811 / 8, 11184811 / 8⟩ emptyBody)
            (leaf ⟨8388608, 11184811 / 8, 11184811 / 8, 11184811 / 8⟩ roundB))
          (leaf ⟨8388608, 11184811 / 4, 11184811 / 4, 11184811 / 4⟩ emptyBody)
          (leaf ⟨11184811 / 2, 11184811 / 4, 11184811 / 4, 11184811 / 4⟩ emptyBody))
        (leaf ⟨11184811 / 2, 11184811 / 2, 11184811 / 2, 11184811 / 2⟩ emptyBody)
        (leaf ⟨0, 11184811 / 2, 11184811 / 2, 11184811 / 2⟩ emptyBody) ∧
    containsR fl32 (leaf ⟨8388608, 11184811 / 8, 11184811 / 8, 11184811 / 8⟩ roundB) roundB
      = false ∧
    ¬ ContainedR fl32 []
      (InsertR fl32 (InsertR fl32 (NewBHTree ⟨0, 0, 11184811, 11184811⟩) roundA 0) roundB 0) := by
  have hB : roundB.Mass ≠ 0 := by norm_num [roundB, NewBody]
  have cB : containsR fl32 (leaf ⟨8388608, 11184811 / 8, 11184811 / 8, 11184811 / 8⟩ roundB)
      roundB = false := by
    norm_num [containsR, BHTree.boundary, roundB, NewBody, fl32_corner3]
  refine ⟨fl32_full, fl32_first, fl32_zero, by norm_num [roundA, NewBody],
    by norm_num [roundB, NewBody], ?_, ?_, roundTree_level1, cB, ?_⟩
  · norm_num [containsR, NewBHTree, BHTree.boundary, roundA, NewBody, fl32_full]
  · norm_num [containsR, NewBHTree, BHTree.boundary, roundB, NewBody, fl32_full]
  · rw [roundTree_level1]
    intro h
    simp only [ContainedR] at h
    have h1 := h.2.1.2.1.2.2.2 hB _ (List.mem_cons_self _ _)
    rw [NewBHTree] at h1
    have h2 : containsR fl32
        (leaf ⟨8388608, 11184811 / 8, 11184811 / 8, 11184811 / 8⟩ emptyBody) roundB = false := by
      norm_num [containsR, BHTree.boundary, roundB, NewBody, fl32_corner3]
    rw [h2] at h1
    exact Bool.false_ne_true h1

/-! ## C11: empty nodes over IEEE arithmetic -/

/-- Certificate for a value of `fl32` on a positive argument below `2^(-126)`,
where the binary32 values are the multiples of `2^(-149)`. -/
theorem fl32_eq_of_subnormal (x : ℚ) (n : ℤ) (h1 : 0 < x) (h2 : x < (2 : ℚ) ^ (-126 : ℤ))
    (hr : roundEven (x / 2 ^ (-149 : ℤ)) = n) : fl32 x = n * 2 ^ (-149 : ℤ) := by
  have hlog : Int.log 2 |x| < -126 := by
    rw [abs_of_pos h1]
    exact (Int.lt_zpow_iff_log_lt (by norm_num : 1 < (2 : ℕ)) h1).mp (by exact_mod_cast h2)
  have hmax : max (Int.log 2 |x|) (-126) = -126 := max_eq_right (le_of_lt hlog)
  simp only [fl32, if_neg (ne_of_gt h1), hmax]
  norm_num at hr ⊢
  rw [hr]

theorem sqrt32_zero : sqrt32 0 = 0 := by simp [sqrt32]

theorem Vector2DistanceR_id (v1 v2 : Vector2) :
    Vector2DistanceR id Rat.sqrt v1 v2 = Vector2Distance v1 v2 := rfl

/-- With exact arithmetic and nonzero divisors `AddForceR` is `AddForce`. -/
theorem AddForceR_id (b other : Body)
    (h : Clamp (Vector2Distance b.Position other.Position) (max b.Radius other.Radius)
      MaxDistance ≠ 0) :
    AddForceR id Rat.sqrt b other = some (AddForce b other) := by
  simp only [AddForceR, Vector2DistanceR_id, id, mul_self_eq_zero, or_self, if_neg h]
  rfl

theorem fl32_nine : fl32 9 = 9 := by
  rw [fl32_eq_of_binade 9 3 9437184 (by norm_num) (by norm_num) (by norm_num)
    (roundEven_of_lt _ _ (by norm_num) (by norm_num))]
  norm_num

theorem fl32_tiny_mass : fl32 (1 / 2 ^ 100) = 1 / 2 ^ 100 := by
  rw [fl32_eq_of_binade (1 / 2 ^ 100) (-100) 8388608 (by norm_num) (by norm_num) (by norm_num)
    (roundEven_of_lt _ _ (by norm_num) (by norm_num))]
  norm_num

theorem fl32_tiny_radius : fl32 (3 / 2 ^ 100) = 3 / 2 ^ 100 := by
  rw [fl32_eq_of_binade (3 / 2 ^ 100) (-99) 12582912 (by norm_num) (by norm_num) (by norm_num)
    (roundEven_of_lt _ _ (by norm_num) (by norm_num))]
  norm_num

theorem fl32_tiny_square : fl32 (3 / 2 ^ 100 * (3 / 2 ^ 100)) = 0 := by
  rw [fl32_eq_of_subnormal (3 / 2 ^ 100 * (3 / 2 ^ 100)) 0 (by norm_num) (by norm_num)
    (roundEven_of_lt _ _ (by norm_num) (by norm_num))]
  norm_num

/-- C11 (counterexample): an empty node, as `NewBHTree` and `subdivide` create
it, is not skipped and changes the `Force` of the target.  The guard of
`CalculateForces` tests the mass of the target, not that of the node, so for a
target of nonzero mass and id `AddForce` is called with the empty body.  In
binary32, for the target of mass `2^(-100)` at the origin (mass and radius are
binary32 values, both positive) the clamped distance is the radius
`3 * 2^(-100)`, its square rounds to `0`, and `strength` is `0/0`: the `Force`
becomes NaN.  For the target of mass `-1` at the origin the clamped distance
itself is `0`, with exact arithmetic as well. -/
theorem C11_empty_node_changes_force :
    (NewBHTree ⟨0, 0, 100, 100⟩).divided = false ∧
    (NewBHTree ⟨0, 0, 100, 100⟩).body.Mass = 0 ∧
    (0 < tinyTarget.Mass ∧ 0 < tinyTarget.Radius ∧
      fl32 tinyTarget.Mass = tinyTarget.Mass ∧ fl32 tinyTarget.Radius = tinyTarget.Radius) ∧
    CalculateForcesR fl32 sqrt32 (NewBHTree ⟨0, 0, 100, 100⟩) tinyTarget = none ∧
    CalculateForcesR fl32 sqrt32 (subdivideR fl32 ⟨0, 0, 100, 100⟩).1 tinyTarget = none ∧
    CalculateForcesR id Rat.sqrt (NewBHTree ⟨0, 0, 100, 100⟩) negativeTarget = none := by
  have hg : ¬ (tinyTarget.Mass = 0 ∨ emptyBody.Id = tinyTarget.Id) := by
    norm_num [tinyTarget, emptyBody, NewBody]
  have hn : ¬ (negativeTarget.Mass = 0 ∨ emptyBody.Id = negativeTarget.Id) := by
    norm_num [negativeTarget, emptyBody, NewBody]
  have hd : Vector2DistanceR fl32 sqrt32 tinyTarget.Position emptyBody.Position = 0 := by
    norm_num [Vector2DistanceR, tinyTarget, emptyBody, NewBody, fl32_zero, sqrt32_zero]
  have hc : Clamp 0 (max tinyTarget.Radius emptyBody.Radius) MaxDistance = 3 / 2 ^ 100 := by
    norm_num [Clamp, tinyTarget, emptyBody, NewBody, RadiusCoeff, MaxDistance]
  have ht : AddForceR fl32 sqrt32 tinyTarget emptyBody = none := by
    simp only [AddForceR, hd, hc, fl32_tiny_square, or_true, if_true]
  have hdn : Vector2DistanceR id Rat.sqrt negativeTarget.Position emptyBody.Position = 0 := by
    norm_num [Vector2DistanceR, negativeTarget, emptyBody, NewBody]
  have hcn : Clamp 0 (max negativeTarget.Radius emptyBody.Radius) MaxDistance = 0 := by
    norm_num [Clamp, negativeTarget, emptyBody, NewBody, RadiusCoeff, MaxDistance]
  refine ⟨rfl, rfl, ⟨?_, ?_, ?_, ?_⟩, ?_, ?_, ?_⟩
  · norm_num [tinyTarget, NewBody]
  · norm_num [tinyTarget, NewBody, RadiusCoeff]
  · simp only [tinyTarget, NewBody]; exact fl32_tiny_mass
  · have hr : tinyTarget.Radius = 3 / 2 ^ 100 := by
      norm_num [tinyTarget, NewBody, RadiusCoeff]
    rw [hr]; exact fl32_tiny_radius
  · simp only [NewBHTree, CalculateForcesR, hg, if_false, ht]
  · simp only [subdivideR, NewBHTree, CalculateForcesR, hg, if_false, ht]
  · simp only [NewBHTree, CalculateForcesR, hn, if_false, AddForceR, hdn, hcn, true_or, if_true]

/-- C11 (amended): for every empty node and every target whose `Force` is a
value of the arithmetic (`rnd` fixes `0` and both components), `CalculateForces`
returns the target unchanged in every field when the target has mass 0, or has
id 0, or the rounded square of the clamped distance between the target and the
empty body is nonzero; for any other target the `Force` becomes infinite or
NaN.  The node is skipped at the guard only in the first two cases; in the
third the empty body is passed to `AddForce`, where its zero mass gives a zero
force.  The statement holds for exact arithmetic (`rnd = id`) and for binary32
(`rnd = fl32`), and for every square root function. -/
theorem C11_empty_node_force (rnd sq : ℚ → ℚ) (bd : Rectangle) (target : Body)
    (h0 : rnd 0 = 0)
    (hF : rnd target.Force.X = target.Force.X ∧ rnd target.Force.Y = target.Force.Y) :
    CalculateForcesR rnd sq (NewBHTree bd) target =
      if target.Mass = 0 ∨ target.Id = 0 ∨
          rnd (Clamp (Vector2DistanceR rnd sq target.Position emptyBody.Position)
              (max target.Radius emptyBody.Radius) MaxDistance *
            Clamp (Vector2DistanceR rnd sq target.Position emptyBody.Position)
              (max target.Radius emptyBody.Radius) MaxDistance) ≠ 0
        then some target else none := by
  have hid : (emptyBody.Id = target.Id) = (target.Id = 0) := by
    simp only [emptyBody, eq_comm]
  simp only [NewBHTree, CalculateForcesR, hid]
  by_cases hm : target.Mass = 0
  · simp [hm]
  by_cases hi : target.Id = 0
  · simp [hi]
  by_cases hs : rnd (Clamp (Vector2DistanceR rnd sq target.Position emptyBody.Position)
              (max target.Radius emptyBody.Radius) MaxDistance *
            Clamp (Vector2DistanceR rnd sq target.Position emptyBody.Position)
              (max target.Radius emptyBody.Radius) MaxDistance) = 0
  · simp [hm, hi, hs, AddForceR]
  · have hd : Clamp (Vector2DistanceR rnd sq target.Position emptyBody.Position)
        (max target.Radius emptyBody.Radius) MaxDistance ≠ 0 := by
      intro hz
      apply hs
      rw [hz, mul_zero, h0]
    have hmz : emptyBody.Mass = 0 := rfl
    cases target with
    | mk m p v r i f =>
      cases f with
      | mk fx fy =>
        simp only at hF
        simp [hm, hi, hs, hd, AddForceR, hmz, h0, hF.1, hF.2]

/-- Instance of C11 (amended) in binary32 for the target of mass 1 at the
origin: the clamped distance is the radius 3, its square is 9, and the target
is returned unchanged. -/
theorem C11_empty_node_force_witness :
    fl32 0 = 0 ∧
    (fl32 originTarget.Force.X = originTarget.Force.X ∧
      fl32 originTarget.Force.Y = originTarget.Force.Y) ∧
    CalculateForcesR fl32 sqrt32 (NewBHTree ⟨0, 0, 100, 100⟩) originTarget =
      some originTarget := by
  have hd : Vector2DistanceR fl32 sqrt32 originTarget.Position emptyBody.Position = 0 := by
    norm_num [Vector2DistanceR, originTarget, emptyBody, NewBody, fl32_zero, sqrt32_zero]
  have hc : Clamp 0 (max originTarget.Radius emptyBody.Radius) MaxDistance = 3 := by
    norm_num [Clamp, originTarget, emptyBody, NewBody, RadiusCoeff, MaxDistance]
  have hF : fl32 originTarget.Force.X = originTarget.Force.X ∧
      fl32 originTarget.Force.Y = originTarget.Force.Y :=
    ⟨fl32_zero, fl32_zero⟩
  refine ⟨fl32_zero, hF, ?_⟩
  rw [C11_empty_node_force fl32 sqrt32 ⟨0, 0, 100, 100⟩ originTarget fl32_zero hF, hd, hc]
  norm_num [fl32_nine]

end NBody
